import Mathlib

/-!
# CQueue: a sentinel-headed doubly linked FIFO queue with cursors

Shallow embedding of `src/CQueue.h`.

* Memory is an explicit heap: a map from addresses (`Nat`) to live `Element`s
  together with the next address `new` hands out.  A pointer is an
  `Option Nat`, `none` being `nullptr`.  `new` always succeeds and returns an
  address that no node, live or deleted, has had before; `delete` makes the
  address dead.
* Every member function is a function on the explicit state that returns in
  `Except Fault`: dereferencing `nullptr`, touching a deleted node, and
  leaving a value-returning function without `return` are undefined behaviour
  in C++ and show up as the faults `nullDeref`, `danglingDeref`, `noReturn`;
  a failed `assert` (only in a build without `NDEBUG`) is `assertFailed`.
* `count` is a `std::size_t`; it is modelled by `Nat`.  `--count` is only
  executed under the guard `count > 0`, and `++count` counts live nodes, each
  of which occupies its own addresses, so neither wraps.
-/

namespace CQueue

/-- Reasons for which an execution does not produce a result. -/
inductive Fault where
  /-- An `assert` failed in a build with assertions compiled in; the process aborts. -/
  | assertFailed
  /-- Undefined behaviour: `nullptr` was dereferenced. -/
  | nullDeref
  /-- Undefined behaviour: a deleted node was accessed or deleted a second time. -/
  | danglingDeref
  /-- Undefined behaviour: control flowed off the end of a value-returning function. -/
  | noReturn
  deriving DecidableEq, Repr

/-- The only fault that the program itself detects and reports is the failed assertion;
the other three are undefined behaviour, which nothing reports. -/
def Fault.reported : Fault → Bool
  | .assertFailed => true
  | .nullDeref => false
  | .danglingDeref => false
  | .noReturn => false

/-- `struct Element`: the stored value `res` and the two links. -/
structure Element (α : Type) where
  res : α
  prev : Option Nat
  next : Option Nat
  deriving DecidableEq, Repr

/-- `Element()`: default value, both links null. -/
def Element.default {α : Type} [Inhabited α] : Element α :=
  { res := Inhabited.default, prev := none, next := none }

/-- `Element(const type &x)` and `Element(type &&x)`: a copy of `x`, both links null. -/
def Element.ofValue {α : Type} (x : α) : Element α :=
  { res := x, prev := none, next := none }

/-- The free store: the live nodes by address, and the address the next `new` returns. -/
structure Heap (α : Type) where
  cells : Nat → Option (Element α)
  fresh : Nat

namespace Heap

variable {α : Type}

/-- A heap without any live node. -/
def empty : Heap α :=
  { cells := fun _ => none, fresh := 0 }

/-- Overwrite the node stored at address `a`. -/
def store (m : Heap α) (a : Nat) (e : Element α) : Heap α :=
  { cells := fun b => if b = a then some e else m.cells b, fresh := m.fresh }

/-- `new Element(...)`: the node is placed at a fresh address. -/
def alloc (m : Heap α) (e : Element α) : Nat × Heap α :=
  (m.fresh, { cells := fun b => if b = m.fresh then some e else m.cells b, fresh := m.fresh + 1 })

/-- `*p`: read the node a pointer refers to. -/
def load (m : Heap α) (p : Option Nat) : Except Fault (Element α) :=
  match p with
  | none => .error .nullDeref
  | some a =>
    match m.cells a with
    | none => .error .danglingDeref
    | some e => .ok e

/-- `p->prev = v`. -/
def setPrev (m : Heap α) (p : Option Nat) (v : Option Nat) : Except Fault (Heap α) :=
  match p with
  | none => .error .nullDeref
  | some a =>
    match m.cells a with
    | none => .error .danglingDeref
    | some e => .ok (m.store a { e with prev := v })

/-- `p->next = v`. -/
def setNext (m : Heap α) (p : Option Nat) (v : Option Nat) : Except Fault (Heap α) :=
  match p with
  | none => .error .nullDeref
  | some a =>
    match m.cells a with
    | none => .error .danglingDeref
    | some e => .ok (m.store a { e with next := v })

/-- `delete p`: deleting `nullptr` does nothing, deleting a node that is not live is
undefined behaviour. -/
def delete (m : Heap α) (p : Option Nat) : Except Fault (Heap α) :=
  match p with
  | none => .ok m
  | some a =>
    match m.cells a with
    | none => .error .danglingDeref
    | some _ => .ok { cells := fun b => if b = a then none else m.cells b, fresh := m.fresh }

end Heap

/-- `class CQueue<type>::iterator`: a single pointer `cur`. -/
structure iterator where
  cur : Option Nat
  deriving DecidableEq, Repr

/-- The data members `head`, `tail`, `count` of `class CQueue`, with the heap they point into. -/
structure State (α : Type) where
  mem : Heap α
  head : Option Nat
  tail : Option Nat
  count : Nat

variable {α : Type}

/-- `CQueue()`: `count(0)`, `tail = head = new Element`. -/
def construct [Inhabited α] (m : Heap α) : State α :=
  let r := m.alloc Element.default
  { mem := r.2, head := some r.1, tail := some r.1, count := 0 }

/-- `push(const type &ele)`; the overload `push(type &&ele)` has the same body. -/
def push (q : State α) (ele : α) : Except Fault (State α) := do
  let r := q.mem.alloc (Element.ofValue ele)            -- auto *tmp = new Element(ele);
  let tmp := some r.1
  let m1 ← r.2.setNext q.tail tmp                       -- tail->next = tmp;
  let m2 ← m1.setPrev tmp q.tail                        -- tmp->prev = tail;
  let t ← m2.load q.tail                                -- tail = tail->next;
  pure { mem := m2, head := q.head, tail := t.next, count := q.count + 1 }   -- ++count;

/-- `pop()`.  `ndebug` tells whether the translation unit is compiled with `NDEBUG`,
in which case `assert` expands to nothing. -/
def pop (ndebug : Bool) (q : State α) : Except Fault (State α) :=
  if ndebug = false ∧ ¬ (q.count > 0) then .error .assertFailed   -- assert(count > 0);
  else if q.count > 0 then do
    let h ← q.mem.load q.head                           -- head = head->next;
    let head1 := h.next
    let e ← q.mem.load head1                            -- delete head->prev;
    let m1 ← q.mem.delete e.prev
    let m2 ← m1.setPrev head1 none                      -- head->prev = nullptr;
    pure { mem := m2, head := head1, tail := q.tail, count := q.count - 1 }   -- --count;
  else pure q

/-- `top()`.  The state is returned next to the value to make visible that the body
assigns to nothing.  With `count == 0` and `NDEBUG` the function ends without `return`. -/
def top (ndebug : Bool) (q : State α) : Except Fault (α × State α) :=
  if ndebug = false ∧ ¬ (q.count > 0) then .error .assertFailed   -- assert(count > 0);
  else if q.count > 0 then do
    let h ← q.mem.load q.head                           -- return head->next->res;
    let f ← q.mem.load h.next
    pure (f.res, q)
  else .error .noReturn

/-- `empty()`. -/
def empty (q : State α) : Bool :=
  decide (q.count = 0)

/-- `remove(iterator &x)`; the iterator is passed by reference, so its final value is
returned with the state. -/
def remove (q : State α) (x : iterator) : Except Fault (State α × iterator) :=
  if q.count = 0 ∨ x.cur = none then pure (q, x)        -- if (count == 0 || x.cur == nullptr) return;
  else do
    let h ← q.mem.load q.head
    if x.cur = h.next then do                           -- if (x.cur == head->next)
      let tmp := h.next                                 -- auto tmp = head->next;
      let f ← q.mem.load h.next                         -- head->next = head->next->next;
      let m1 ← q.mem.setNext q.head f.next
      let h1 ← m1.load q.head
      if h1.next ≠ none then do                         -- if (head->next != nullptr)
        let m2 ← m1.setPrev h1.next q.head              --   head->next->prev = head;
        let m3 ← m2.delete tmp                          -- delete tmp;
        pure ({ mem := m3, head := q.head, tail := q.tail, count := q.count - 1 }, x)
      else do
        let m2 ← m1.setNext q.head none                 -- tail = head; head->next = nullptr;
        let m3 ← m2.delete tmp                          -- delete tmp;
        pure ({ mem := m3, head := q.head, tail := q.head, count := q.count - 1 }, x)
    else if x.cur = q.tail then do                      -- else if (x.cur == tail)
      let c ← q.mem.load x.cur                          -- x.cur = x.cur->prev;
      let x1 : iterator := { cur := c.prev }
      let tail1 := x1.cur                               -- tail = x.cur;
      let t ← q.mem.load tail1                          -- delete tail->next;
      let m1 ← q.mem.delete t.next
      let m2 ← m1.setNext x1.cur none                   -- x.cur->next = nullptr;
      pure ({ mem := m2, head := q.head, tail := tail1, count := q.count - 1 }, x1)
    else do
      let tmp := x.cur                                  -- auto tmp = x.cur;
      let t ← q.mem.load tmp                            -- tmp->prev->next = tmp->next;
      let m1 ← q.mem.setNext t.prev t.next
      let t1 ← m1.load tmp                              -- tmp->next->prev = tmp->prev;
      let m2 ← m1.setPrev t1.next t1.prev
      let m3 ← m2.delete tmp                            -- delete tmp;
      pure ({ mem := m3, head := q.head, tail := q.tail, count := q.count - 1 }, x)

/-- `begin()`. -/
def begin (q : State α) : Except Fault iterator :=
  if q.head = none then pure { cur := none }
  else do
    let h ← q.mem.load q.head
    pure { cur := h.next }

/-- `end()` (the name `end` itself is reserved in Lean). -/
def end_ (_q : State α) : iterator :=
  { cur := none }

/-- The loop of `~CQueue()`: `while (head != tail) { head = cur->next; delete head; cur = head; }`.
The test compares pointers only.  `fuel` bounds the number of iterations; the result is
`none` when it does not suffice. -/
def destructLoop (tail : Option Nat) :
    Nat → Heap α → Option Nat → Option Nat → Option (Except Fault (Heap α × Option Nat))
  | fuel, m, head, cur =>
    if head ≠ tail then                                   -- while (head != tail)
      match fuel with
      | 0 => none
      | fuel + 1 =>
        match m.load cur with                             -- head = cur->next;
        | .error f => some (.error f)
        | .ok e =>
          match m.delete e.next with                      -- delete head;
          | .error f => some (.error f)
          | .ok m1 => destructLoop tail fuel m1 e.next e.next   -- cur = head;
    else some (.ok (m, head))

/-- `~CQueue()`: `Element *cur = head;` and the loop.  Nothing follows the loop. -/
def destructor (fuel : Nat) (q : State α) : Option (Except Fault (State α)) :=
  match destructLoop q.tail fuel q.mem q.head q.head with
  | none => none
  | some (.error f) => some (.error f)
  | some (.ok r) => some (.ok { mem := r.1, head := r.2, tail := q.tail, count := q.count })

namespace iterator

/-- `operator==`. -/
def eq (x y : iterator) : Bool :=
  decide (x.cur = y.cur)

/-- `fetch()`: `return cur->res;` with no test of `cur`. -/
def fetch (m : Heap α) (x : iterator) : Except Fault α := do
  let e ← m.load x.cur
  pure e.res

/-- `moveBack()`. -/
def moveBack (m : Heap α) (x : iterator) : Except Fault iterator :=
  if x.cur ≠ none then do
    let e ← m.load x.cur
    pure { cur := e.next }
  else pure x

/-- `moveFront()`. -/
def moveFront (m : Heap α) (x : iterator) : Except Fault iterator :=
  if x.cur ≠ none then do
    let e ← m.load x.cur
    pure { cur := e.prev }
  else pure x

/-- `isNull()`. -/
def isNull (x : iterator) : Bool :=
  decide (x.cur = none)

end iterator

/-! ## Test drivers built from the member functions -/

/-- Push the values of a list, first to last. -/
def pushAll (q : State α) : List α → Except Fault (State α)
  | [] => pure q
  | v :: vs => do
    let q1 ← push q v
    pushAll q1 vs

/-- Repeat `n` times: `top()`, then `pop()`; collect what `top` returned. -/
def drain (ndebug : Bool) : Nat → State α → Except Fault (List α × State α)
  | 0, q => pure ([], q)
  | n + 1, q => do
    let r ← top ndebug q
    let q1 ← pop ndebug r.2
    let rest ← drain ndebug n q1
    pure (r.1 :: rest.1, rest.2)

/-- Repeat `n` times: `fetch()`, then `moveBack()`; collect what `fetch` returned and give
the final iterator. -/
def walk (m : Heap α) : Nat → iterator → Except Fault (List α × iterator)
  | 0, x => pure ([], x)
  | n + 1, x => do
    let v ← x.fetch m
    let x1 ← x.moveBack m
    let r ← walk m n x1
    pure (v :: r.1, r.2)

/-- The iterator `begin()` after `k` calls of `moveBack()`. -/
def cursorAt (q : State α) : Nat → Except Fault iterator
  | 0 => begin q
  | k + 1 => do
    let x ← cursorAt q k
    x.moveBack q.mem

/-- A call made by a client: `push(v)`, `pop()`, or `remove(x)` with `x` the iterator
obtained from `begin()` by `k` calls of `moveBack()`. -/
inductive Op (α : Type) where
  | push (v : α)
  | pop
  | remove (k : Nat)
  deriving DecidableEq, Repr

/-- Execute one call. -/
def step (ndebug : Bool) (q : State α) : Op α → Except Fault (State α)
  | .push v => push q v
  | .pop => pop ndebug q
  | .remove k => do
    let x ← cursorAt q k
    let r ← remove q x
    pure r.1

/-- Execute a sequence of calls, first to last. -/
def run (ndebug : Bool) (q : State α) : List (Op α) → Except Fault (State α)
  | [] => pure q
  | o :: os => do
    let q1 ← step ndebug q o
    run ndebug q1 os

/-- The specification of one call on the list of elements still in the queue, oldest
first: `push` appends, `pop` drops the first element, `remove` erases the element the
cursor references.  `none` when the precondition of the call does not hold (`pop` on an
empty queue, a cursor beyond the last element). -/
def Op.spec : Op α → List α → Option (List α)
  | .push v, xs => some (xs ++ [v])
  | .pop, [] => none
  | .pop, _ :: xs => some xs
  | .remove k, xs => if k < xs.length then some (xs.eraseIdx k) else none

/-- The specification of a sequence of calls. -/
def specRun : List (Op α) → List α → Option (List α)
  | [], xs => some xs
  | o :: os, xs =>
    match o.spec xs with
    | none => none
    | some ys => specRun os ys

/-- Number of `push` calls in a sequence. -/
def pushes : List (Op α) → Nat
  | [] => 0
  | .push _ :: os => pushes os + 1
  | .pop :: os => pushes os
  | .remove _ :: os => pushes os

/-- Number of `pop` and `remove` calls in a sequence. -/
def removals : List (Op α) → Nat
  | [] => 0
  | .push _ :: os => removals os
  | .pop :: os => removals os + 1
  | .remove _ :: os => removals os + 1

/-- Whether a sequence of calls contains a `pop()`. -/
def hasPop : List (Op α) → Bool
  | [] => false
  | .push _ :: os => hasPop os
  | .pop :: _ => true
  | .remove _ :: os => hasPop os

/-- A call made by a client, `remove(end())` included, which `Op` leaves out. -/
inductive Call (α : Type) where
  | op (o : Op α)
  | removeEnd
  deriving DecidableEq, Repr

/-- Execute one call. -/
def stepCall (ndebug : Bool) (q : State α) : Call α → Except Fault (State α)
  | .op o => step ndebug q o
  | .removeEnd => do
    let r ← remove q (end_ q)
    pure r.1

/-- Execute a sequence of calls, first to last. -/
def runCalls (ndebug : Bool) (q : State α) : List (Call α) → Except Fault (State α)
  | [] => pure q
  | c :: cs => do
    let q1 ← stepCall ndebug q c
    runCalls ndebug q1 cs

/-- The specification of one call: `remove(end())` changes nothing and has no
precondition. -/
def Call.spec : Call α → List α → Option (List α)
  | .op o, xs => o.spec xs
  | .removeEnd, xs => some xs

/-- The specification of a sequence of calls. -/
def specCalls : List (Call α) → List α → Option (List α)
  | [], xs => some xs
  | c :: cs, xs =>
    match c.spec xs with
    | none => none
    | some ys => specCalls cs ys

/-- The pointers an iterator holds before each of `n` calls of `moveBack()` and after the
last one. -/
def trackBack (m : Heap α) : Nat → iterator → Except Fault (List (Option Nat))
  | 0, x => pure [x.cur]
  | n + 1, x => do
    let x1 ← x.moveBack m
    let r ← trackBack m n x1
    pure (x.cur :: r)

/-- The pointers an iterator holds before each of `n` calls of `moveFront()` and after the
last one. -/
def trackFront (m : Heap α) : Nat → iterator → Except Fault (List (Option Nat))
  | 0, x => pure [x.cur]
  | n + 1, x => do
    let x1 ← x.moveFront m
    let r ← trackFront m n x1
    pure (x.cur :: r)

/-- The loop `for (it = begin(); it != end(); ++it) it.fetch()` unrolled `count` times:
the values read, and the iterator it stops on. -/
def traverse (q : State α) : Except Fault (List α × iterator) := do
  let b ← begin q
  walk q.mem q.count b

/-! ## Well-formed queues -/

/-- The address of the first node of `l`, or `n` when there is none. -/
def firstPtr (l : List (Nat × α)) (n : Option Nat) : Option Nat :=
  match l with
  | [] => n
  | y :: _ => some y.1

/-- The address of the last node of `l`, or `p` when there is none. -/
def lastPtr (p : Option Nat) : List (Nat × α) → Option Nat
  | [] => p
  | x :: rest => lastPtr (some x.1) rest

/-- The nodes `l` (address and stored value) are live and doubly linked in this order:
the first has `prev = p`, the last has `next = n`, and neighbours point at each other. -/
def Linked (m : Heap α) : Option Nat → List (Nat × α) → Option Nat → Prop
  | _, [], _ => True
  | p, x :: rest, n =>
    m.cells x.1 = some { res := x.2, prev := p, next := firstPtr rest n } ∧
      Linked m (some x.1) rest n

/-- The invariants of the queue: `head` is the sentinel `s`, the real nodes `l` follow it
through `next` up to `tail`, whose `next` is null, `prev` leads back from each node to the
one before and is null in the sentinel, `count` is the number of real nodes, and the nodes
are distinct addresses that `new` has handed out. -/
def WellFormed (q : State α) (s : Nat × α) (l : List (Nat × α)) : Prop :=
  q.head = some s.1 ∧ q.tail = lastPtr (some s.1) l ∧ q.count = l.length ∧
    Linked q.mem none (s :: l) none ∧ ((s :: l).map Prod.fst).Nodup ∧
    ∀ x ∈ s :: l, x.1 < q.mem.fresh

instance Linked.decide [DecidableEq α] (m : Heap α) :
    (p : Option Nat) → (l : List (Nat × α)) → (n : Option Nat) → Decidable (Linked m p l n)
  | _, [], _ => isTrue trivial
  | _, x :: rest, n =>
    have := Linked.decide m (some x.1) rest n
    inferInstanceAs (Decidable (_ ∧ _))

instance WellFormed.decide [DecidableEq α] (q : State α) (s : Nat × α) (l : List (Nat × α)) :
    Decidable (WellFormed q s l) :=
  inferInstanceAs (Decidable (_ ∧ _ ∧ _ ∧ _ ∧ _ ∧ _))

/-- A queue holding 10, 20, 30: the sentinel at address 0, the real nodes at 1, 2, 3. -/
def sampleQueue : State Nat :=
  { mem :=
      { cells := fun a =>
          match a with
          | 0 => some { res := 0, prev := none, next := some 1 }
          | 1 => some { res := 10, prev := some 0, next := some 2 }
          | 2 => some { res := 20, prev := some 1, next := some 3 }
          | 3 => some { res := 30, prev := some 2, next := none }
          | _ => none
        fresh := 4 }
    head := some 0
    tail := some 3
    count := 3 }

/-- A queue holding only 10: the sentinel at address 0, the real node at 1. -/
def singleQueue : State Nat :=
  { mem :=
      { cells := fun a =>
          match a with
          | 0 => some { res := 0, prev := none, next := some 1 }
          | 1 => some { res := 10, prev := some 0, next := none }
          | _ => none
        fresh := 2 }
    head := some 0
    tail := some 1
    count := 1 }

/-- A sequence of calls that respects every precondition and calls `remove(end())`. -/
def sampleCalls : List (Call Nat) :=
  [.op (.push 1), .removeEnd, .op (.push 2), .op (.remove 1), .op .pop, .removeEnd]

/-- The nodes of `sampleQueue` after the sentinel. -/
def sampleNodes : List (Nat × Nat) :=
  [(1, 10), (2, 20), (3, 30)]

/-- A sequence of calls that respects every precondition. -/
def sampleOps : List (Op Nat) :=
  [.push 1, .push 2, .push 3, .remove 1, .pop, .push 4]

/-- A sequence of calls without `pop()` that respects every precondition. -/
def sampleGrowth : List (Op Nat) :=
  [.push 1, .push 2, .push 3, .remove 1]

/-! ## Memory lemmas -/

theorem ok_bind {ε β γ : Type} (a : β) (f : β → Except ε γ) :
    (Except.ok a >>= f) = f a := rfl

theorem error_bind {ε β γ : Type} (e : ε) (f : β → Except ε γ) :
    ((Except.error e : Except ε β) >>= f) = Except.error e := rfl

theorem pure_eq_ok {ε β : Type} (a : β) : (pure a : Except ε β) = Except.ok a := rfl

theorem lastPtr_append (p : Option Nat) (l1 l2 : List (Nat × α)) :
    lastPtr p (l1 ++ l2) = lastPtr (lastPtr p l1) l2 := by
  induction l1 generalizing p with
  | nil => rfl
  | cons x rest ih => simp [lastPtr, ih]

theorem linked_append (m : Heap α) (p n : Option Nat) (l1 l2 : List (Nat × α)) :
    Linked m p (l1 ++ l2) n ↔
      Linked m p l1 (firstPtr l2 n) ∧ Linked m (lastPtr p l1) l2 n := by
  induction l1 generalizing p with
  | nil => simp [Linked, lastPtr]
  | cons x rest ih =>
    cases rest with
    | nil => simp [Linked, lastPtr, firstPtr]
    | cons y r =>
      have := ih (some x.1)
      simp only [List.cons_append, Linked, lastPtr, firstPtr] at this ⊢
      rw [this]
      tauto

theorem linked_frame (m m1 : Heap α) (p n : Option Nat) (l : List (Nat × α))
    (hsame : ∀ x ∈ l, m1.cells x.1 = m.cells x.1) (h : Linked m p l n) :
    Linked m1 p l n := by
  induction l generalizing p with
  | nil => trivial
  | cons x rest ih =>
    refine ⟨?_, ih _ (fun y hy => hsame y (List.mem_cons_of_mem _ hy)) h.2⟩
    rw [hsame x (List.mem_cons_self _ _)]
    exact h.1

theorem lastPtr_cons (p : Option Nat) (x : Nat × α) (l : List (Nat × α)) :
    lastPtr p (x :: l) = lastPtr (some x.1) l := rfl

theorem lastPtr_snoc (p : Option Nat) (l : List (Nat × α)) (t : Nat × α) :
    lastPtr p (l ++ [t]) = some t.1 := by
  rw [lastPtr_append]; rfl

/-- A non-empty path ends in some node. -/
theorem exists_snoc (s : Nat × α) (l : List (Nat × α)) :
    ∃ A t, s :: l = A ++ [t] :=
  ⟨(s :: l).dropLast, (s :: l).getLast (List.cons_ne_nil _ _),
    (List.dropLast_append_getLast (List.cons_ne_nil _ _)).symm⟩

theorem push_spec (q : State α) (s : Nat × α) (l : List (Nat × α)) (v : α)
    (h : WellFormed q s l) :
    ∃ q1, push q v = .ok q1 ∧ WellFormed q1 s (l ++ [(q.mem.fresh, v)]) ∧
      q1.tail = some q.mem.fresh ∧ q1.count = q.count + 1 ∧ q1.head = q.head := by
  obtain ⟨hhead, htail, hcount, hlink, hnodup, hbound⟩ := h
  obtain ⟨A, t, hP⟩ := exists_snoc s l
  rw [← lastPtr_cons none, hP, lastPtr_snoc] at htail
  rw [hP] at hlink hnodup hbound
  rw [linked_append] at hlink
  obtain ⟨hA, ht, -⟩ := hlink
  have htf : t.1 ≠ q.mem.fresh := by
    have := hbound t (by simp)
    omega
  have hft : q.mem.fresh ≠ t.1 := Ne.symm htf
  simp only [push, Heap.alloc, Heap.setNext, Heap.setPrev, Heap.load, Heap.store, htail, ht, htf,
    hft, if_false, if_true, ok_bind, pure_eq_ok, Element.ofValue]
  refine ⟨_, rfl, ?_, rfl, rfl, rfl⟩
  · refine ⟨hhead, ?_, by simp [hcount], ?_, ?_, ?_⟩
    · show some q.mem.fresh = lastPtr (some s.1) (l ++ [(q.mem.fresh, v)])
      rw [← lastPtr_cons none, ← List.cons_append, lastPtr_snoc]
    · show Linked _ none (s :: (l ++ [(q.mem.fresh, v)])) none
      rw [← List.cons_append, hP, linked_append, linked_append]
      refine ⟨⟨?_, ?_, trivial⟩, ?_, trivial⟩
      · refine linked_frame _ _ _ _ _ ?_ hA
        intro x hx
        have h1 : x.1 ≠ q.mem.fresh := by
          have := hbound x (by simp [hx])
          omega
        have h2 : x.1 ≠ t.1 := by
          intro heq
          rw [List.map_append, List.nodup_append] at hnodup
          exact hnodup.2.2 (List.mem_map_of_mem _ hx) (by simp [heq])
        simp [h1, h2]
      · simp [htf, firstPtr]
      · simp [lastPtr_snoc, firstPtr]
    · show (List.map Prod.fst (s :: (l ++ [(q.mem.fresh, v)]))).Nodup
      rw [← List.cons_append, hP, List.map_append, List.nodup_append]
      refine ⟨hnodup, by simp, ?_⟩
      intro a ha hb
      simp only [List.map_cons, List.map_nil, List.mem_singleton] at hb
      rw [← hP] at hbound
      obtain ⟨x, hx, rfl⟩ := List.mem_map.1 (hP ▸ ha)
      have := hbound x hx
      omega
    · intro x hx
      show x.1 < q.mem.fresh + 1
      rw [← List.cons_append, List.mem_append] at hx
      rcases hx with hx | hx
      · have := hbound x (hP ▸ hx)
        omega
      · simp only [List.mem_singleton] at hx
        rw [hx]
        exact Nat.lt_succ_self _

/-- Every node of a linked segment is live and stores the value listed for it. -/
theorem linked_cell (m : Heap α) (p n : Option Nat) (l : List (Nat × α)) (x : Nat × α)
    (h : Linked m p l n) (hx : x ∈ l) :
    ∃ e, m.cells x.1 = some e ∧ e.res = x.2 := by
  induction l generalizing p with
  | nil => simp at hx
  | cons y rest ih =>
    rcases List.mem_cons.1 hx with rfl | hx
    · exact ⟨_, h.1, rfl⟩
    · exact ih _ h.2 hx

theorem fetch_of_linked (m : Heap α) (p n : Option Nat) (l : List (Nat × α)) (x : Nat × α)
    (h : Linked m p l n) (hx : x ∈ l) :
    iterator.fetch m { cur := some x.1 } = .ok x.2 := by
  obtain ⟨e, he, hr⟩ := linked_cell m p n l x h hx
  simp [iterator.fetch, Heap.load, he, ok_bind, pure_eq_ok, hr]

theorem construct_wellFormed [Inhabited α] (m : Heap α) :
    WellFormed (construct m) (m.fresh, default) [] := by
  refine ⟨rfl, rfl, rfl, ?_, by simp, ?_⟩
  · refine ⟨?_, trivial⟩
    simp [construct, Heap.alloc, Element.default, firstPtr]
  · intro x hx
    simp only [List.mem_singleton] at hx
    subst hx
    simp [construct, Heap.alloc]

theorem top_spec (ndebug : Bool) (q : State α) (s x : Nat × α) (rest : List (Nat × α))
    (h : WellFormed q s (x :: rest)) : top ndebug q = .ok (x.2, q) := by
  obtain ⟨hhead, -, hcount, hlink, -, -⟩ := h
  obtain ⟨hs, hx, -⟩ := hlink
  have hpos : q.count > 0 := by simp [hcount]
  simp [top, hpos, Heap.load, hhead, hs, hx, firstPtr, ok_bind, pure_eq_ok]

theorem pop_spec (ndebug : Bool) (q : State α) (s x : Nat × α) (rest : List (Nat × α))
    (h : WellFormed q s (x :: rest)) :
    ∃ q1, pop ndebug q = .ok q1 ∧ WellFormed q1 x rest ∧ q1.count + 1 = q.count ∧
      q1.head = some x.1 ∧ q1.tail = q.tail ∧ q1.mem.cells s.1 = none := by
  obtain ⟨hhead, htail, hcount, hlink, hnodup, hbound⟩ := h
  obtain ⟨hs, hx, hrest⟩ := hlink
  have hpos : q.count > 0 := by simp [hcount]
  have hsx : s.1 ≠ x.1 := by
    intro heq
    simp [heq] at hnodup
  have hxs : x.1 ≠ s.1 := Ne.symm hsx
  simp only [pop, hpos, Heap.load, Heap.delete, Heap.setPrev, Heap.store, hhead, hs, hx, firstPtr,
    ok_bind, pure_eq_ok, not_true_eq_false, and_false, if_false, if_true, hxs]
  refine ⟨_, rfl, ?_, by simp [hcount], rfl, rfl, by simp [hsx]⟩
  refine ⟨rfl, htail, by simp [hcount], ⟨by simp [firstPtr], ?_⟩, (List.nodup_cons.1 hnodup).2, ?_⟩
  · refine linked_frame _ _ _ _ _ ?_ hrest
    intro y hy
    have h1 : y.1 ≠ x.1 := by
      intro heq
      have := (List.nodup_cons.1 (List.nodup_cons.1 hnodup).2).1
      exact this (heq ▸ List.mem_map_of_mem _ hy)
    have h2 : y.1 ≠ s.1 := by
      intro heq
      have := (List.nodup_cons.1 hnodup).1
      exact this (heq ▸ List.mem_map_of_mem _ (List.mem_cons_of_mem _ hy))
    simp [h1, h2]
  · intro y hy
    exact hbound y (List.mem_cons_of_mem _ hy)

theorem firstPtr_of_ne_nil (l : List (Nat × α)) (hl : l ≠ []) (n : Option Nat) :
    ∃ z ∈ l, firstPtr l n = some z.1 := by
  cases l with
  | nil => exact absurd rfl hl
  | cons z r => exact ⟨z, List.mem_cons_self _ _, rfl⟩

theorem lastPtr_of_ne_nil (l : List (Nat × α)) (hl : l ≠ []) (p : Option Nat) :
    ∃ z ∈ l, lastPtr p l = some z.1 := by
  induction l generalizing p with
  | nil => exact absurd rfl hl
  | cons z r ih =>
    by_cases hr : r = []
    · subst hr
      exact ⟨z, List.mem_cons_self _ _, rfl⟩
    · obtain ⟨w, hw, he⟩ := ih hr (some z.1)
      exact ⟨w, List.mem_cons_of_mem _ hw, he⟩

theorem firstPtr_append_cons (l : List (Nat × α)) (x : Nat × α) (r : List (Nat × α))
    (n k : Option Nat) : firstPtr (l ++ x :: r) n = firstPtr (l ++ x :: r) k := by
  cases l <;> rfl

/-- Unlinking the node `x` that follows `p`: when `p` now points forward to the node after
`x`, that node (if any) points back to `p`, and all other nodes are untouched, the path
without `x` is linked. -/
theorem linked_unlink (m0 m1 : Heap α) (pp nn : Option Nat) (pre : List (Nat × α))
    (p x : Nat × α) (B : List (Nat × α))
    (hl : Linked m0 pp (pre ++ p :: x :: B) nn)
    (hnd : ((pre ++ p :: x :: B).map Prod.fst).Nodup)
    (hp : m1.cells p.1 = some { res := p.2, prev := lastPtr pp pre, next := firstPtr B nn })
    (hB : ∀ y B1, B = y :: B1 →
      m1.cells y.1 = some { res := y.2, prev := some p.1, next := firstPtr B1 nn })
    (hframe : ∀ a, a ≠ p.1 → a ≠ x.1 → firstPtr B none ≠ some a → m1.cells a = m0.cells a) :
    Linked m1 pp (pre ++ p :: B) nn := by
  rw [linked_append] at hl ⊢
  obtain ⟨hpre, -, -, hBl⟩ := hl
  rw [List.map_append, List.nodup_append] at hnd
  obtain ⟨-, hnd2, hdisj⟩ := hnd
  simp only [List.map_cons, List.nodup_cons, List.mem_cons, not_or, List.mem_map, not_exists,
    not_and] at hnd2
  obtain ⟨⟨hpx, hpB⟩, hxB, hBnd⟩ := hnd2
  refine ⟨?_, hp, ?_⟩
  · refine linked_frame _ _ _ _ _ ?_ hpre
    intro z hz
    have hz1 : z.1 ∈ pre.map Prod.fst := List.mem_map_of_mem _ hz
    refine hframe _ ?_ ?_ ?_
    · intro heq
      exact hdisj hz1 (by simp [heq])
    · intro heq
      exact hdisj hz1 (by simp [heq])
    · intro heq
      cases B with
      | nil => simp [firstPtr] at heq
      | cons y B1 =>
        simp only [firstPtr, Option.some.injEq] at heq
        exact hdisj hz1 (by simp [heq])
  · cases B with
    | nil => trivial
    | cons y B1 =>
      refine ⟨hB y B1 rfl, ?_⟩
      refine linked_frame _ _ _ _ _ ?_ hBl.2
      intro z hz
      simp only [List.map_cons, List.nodup_cons, List.mem_map, not_exists, not_and] at hBnd
      refine hframe _ ?_ ?_ ?_
      · intro heq
        exact hpB z (List.mem_cons_of_mem _ hz) heq
      · intro heq
        exact hxB z (List.mem_cons_of_mem _ hz) heq
      · intro heq
        simp only [firstPtr, Option.some.injEq] at heq
        exact hBnd.1 z hz heq.symm

/-- The front branch of `remove`. -/
theorem remove_front (q : State α) (s x : Nat × α) (B : List (Nat × α))
    (h : WellFormed q s (x :: B)) :
    ∃ q1, remove q { cur := some x.1 } = .ok (q1, { cur := some x.1 }) ∧
      WellFormed q1 s B ∧ q1.count + 1 = q.count ∧ q1.head = q.head ∧
      q1.mem.cells x.1 = none := by
  obtain ⟨hhead, htail, hcount, hlink, hnodup, hbound⟩ := h
  have hl := hlink
  obtain ⟨hs, hx, hrest⟩ := hl
  have hpos : ¬ q.count = 0 := by simp [hcount]
  have hsx : s.1 ≠ x.1 := by
    intro heq
    simp [heq] at hnodup
  have hxs : x.1 ≠ s.1 := Ne.symm hsx
  have hnd2 : (List.map Prod.fst (s :: B)).Nodup := by
    simp only [List.map_cons, List.nodup_cons, List.mem_cons, not_or] at hnodup ⊢
    exact ⟨hnodup.1.2, hnodup.2.2⟩
  have hb2 : ∀ z ∈ s :: B, z.1 < q.mem.fresh := by
    intro z hz
    rcases List.mem_cons.1 hz with rfl | hz
    · exact hbound _ (List.mem_cons_self _ _)
    · exact hbound _ (List.mem_cons_of_mem _ (List.mem_cons_of_mem _ hz))
  cases B with
  | nil =>
    simp only [remove, hpos, Heap.load, Heap.delete, Heap.setNext, Heap.setPrev, Heap.store,
      hhead, hs, hx, firstPtr, ok_bind, pure_eq_ok, if_false, if_true, hxs, hsx, false_or,
      ne_eq, not_true_eq_false, reduceCtorEq]
    refine ⟨_, rfl, ?_, by simp [hcount], rfl, by simp [hsx, hxs]⟩
    refine ⟨rfl, rfl, by simp [hcount], ?_, hnd2, hb2⟩
    exact ⟨by simp [firstPtr, hsx], trivial⟩
  | cons y B1 =>
    have hy := hrest.1
    have hys : y.1 ≠ s.1 := by
      intro heq
      simp [heq] at hnodup
    have hyx : y.1 ≠ x.1 := by
      intro heq
      simp [heq] at hnodup
    simp only [remove, hpos, Heap.load, Heap.delete, Heap.setNext, Heap.setPrev, Heap.store,
      hhead, hs, hx, hy, firstPtr, ok_bind, pure_eq_ok, if_false, if_true, hxs, hsx, hys, hyx,
      Ne.symm hys, Ne.symm hyx, false_or,
      ne_eq, not_true_eq_false, not_false_eq_true, reduceCtorEq]
    refine ⟨_, rfl, ?_, by simp [hcount], rfl, by simp [hsx, hxs]⟩
    refine ⟨rfl, htail, by simp [hcount], ?_, hnd2, hb2⟩
    refine linked_unlink q.mem _ none none [] s x (y :: B1) hlink hnodup ?_ ?_ ?_
    · simp [hsx, Ne.symm hys, lastPtr, firstPtr]
    · intro y1 B2 heq
      cases heq
      simp [hyx, firstPtr]
    · intro a h1 h2 h3
      have h4 : a ≠ y.1 := by
        intro heq
        exact h3 (by simp [firstPtr, heq])
      simp [h1, h2, h4]

/-- The tail branch and the interior branch of `remove`: the node `x` has a real node `p`
before it. -/
theorem remove_back (q : State α) (s : Nat × α) (A : List (Nat × α)) (p x : Nat × α)
    (B : List (Nat × α)) (h : WellFormed q s (A ++ p :: x :: B)) :
    ∃ q1 x1, remove q { cur := some x.1 } = .ok (q1, x1) ∧
      WellFormed q1 s (A ++ p :: B) ∧ q1.count + 1 = q.count ∧ q1.head = q.head ∧
      q1.mem.cells x.1 = none ∧
      x1.cur = (if B.isEmpty then some p.1 else some x.1) := by
  obtain ⟨hhead, htail, hcount, hlink, hnodup, hbound⟩ := h
  have hpos : ¬ q.count = 0 := by simp [hcount]
  have hs := hlink.1
  have hl := hlink
  rw [← List.cons_append, linked_append] at hl
  obtain ⟨-, hp, hx, hrest⟩ := hl
  have hnd := hnodup
  rw [← List.cons_append, List.map_append, List.nodup_append] at hnd
  obtain ⟨hndA, hnd2, hdisj⟩ := hnd
  simp only [List.map_cons, List.nodup_cons, List.mem_cons, not_or, List.mem_map, not_exists,
    not_and] at hnd2
  obtain ⟨⟨hpx, hpB⟩, hxB, hBnd⟩ := hnd2
  have hxp : x.1 ≠ p.1 := Ne.symm hpx
  have hsx : s.1 ≠ x.1 := by
    intro heq
    exact hdisj (List.mem_map_of_mem _ (List.mem_cons_self s A)) (by simp [heq])
  have hsp : s.1 ≠ p.1 := by
    intro heq
    exact hdisj (List.mem_map_of_mem _ (List.mem_cons_self s A)) (by simp [heq])
  have hfirst : ∃ a, firstPtr (A ++ p :: x :: B) none = some a ∧ a ≠ x.1 := by
    cases A with
    | nil => exact ⟨p.1, rfl, hpx⟩
    | cons z A1 =>
      refine ⟨z.1, rfl, ?_⟩
      intro heq
      exact hdisj (List.mem_map_of_mem _ (List.mem_cons_of_mem _ (List.mem_cons_self z A1)))
        (by simp [heq])
  obtain ⟨a, hfa, hax⟩ := hfirst
  rw [hfa] at hs
  have hnd3 : (List.map Prod.fst (s :: (A ++ p :: B))).Nodup := by
    refine List.Nodup.sublist ?_ hnodup
    refine List.Sublist.map _ (List.Sublist.cons₂ _ ?_)
    exact List.Sublist.append (List.Sublist.refl _) (List.Sublist.cons₂ _ (List.sublist_cons_self _ _))
  have hb3 : ∀ z ∈ s :: (A ++ p :: B), z.1 < q.mem.fresh := by
    intro z hz
    refine hbound z ?_
    simp only [List.mem_cons, List.mem_append] at hz ⊢
    tauto
  cases B with
  | nil =>
    have htl : q.tail = some x.1 := by
      rw [htail, lastPtr_append]; rfl
    simp only [remove, hpos, Heap.load, Heap.delete, Heap.setNext, Heap.setPrev, Heap.store,
      hhead, hs, hx, hp, htl, firstPtr, ok_bind, pure_eq_ok, if_false, if_true, hxp, hpx, hsx,
      false_or, Option.some.injEq, Ne.symm hax, hax,
      ne_eq, not_true_eq_false, not_false_eq_true, reduceCtorEq]
    refine ⟨_, _, rfl, ?_, by simp [hcount], rfl, by simp [hxp], by simp⟩
    refine ⟨rfl, ?_, by simp [hcount], ?_, hnd3, hb3⟩
    · show some p.1 = lastPtr (some s.1) (A ++ [p])
      rw [lastPtr_snoc]
    · show Linked _ none (s :: (A ++ [p])) none
      rw [← List.cons_append]
      refine linked_unlink q.mem _ none none (s :: A) p x [] ?_ ?_ ?_ ?_ ?_
      · rw [List.cons_append]; exact hlink
      · rw [List.cons_append]; exact hnodup
      · simp [firstPtr]
      · intro y1 B2 heq
        cases heq
      · intro b h1 h2 _
        simp [h1, h2]
  | cons y B1 =>
    have hy := hrest.1
    have hyx : y.1 ≠ x.1 := hxB y (List.mem_cons_self _ _)
    have hyp : y.1 ≠ p.1 := hpB y (List.mem_cons_self _ _)
    have htl : ∃ w, q.tail = some w ∧ w ≠ x.1 := by
      obtain ⟨w, hw, he⟩ := lastPtr_of_ne_nil (y :: B1) (List.cons_ne_nil _ _) (some x.1)
      refine ⟨w.1, ?_, ?_⟩
      · rw [htail, lastPtr_append]; exact he
      · exact hxB w (by simpa using hw)
    obtain ⟨w, htw, hwx⟩ := htl
    simp only [remove, hpos, Heap.load, Heap.delete, Heap.setNext, Heap.setPrev, Heap.store,
      hhead, hs, hx, hp, hy, htw, firstPtr, ok_bind, pure_eq_ok, if_false, if_true, hxp, hpx, hsx,
      hyx, hyp, Ne.symm hyx, Ne.symm hyp, Ne.symm hwx, hwx,
      false_or, Option.some.injEq, Ne.symm hax, hax,
      ne_eq, not_true_eq_false, not_false_eq_true, reduceCtorEq]
    refine ⟨_, _, rfl, ?_, by simp [hcount]; omega, rfl, by simp [hxp, Ne.symm hyx], by simp⟩
    refine ⟨rfl, ?_, by simp [hcount], ?_, hnd3, hb3⟩
    · show some w = lastPtr (some s.1) (A ++ p :: y :: B1)
      rw [← htw, htail, lastPtr_append, lastPtr_append]; rfl
    · show Linked _ none (s :: (A ++ p :: y :: B1)) none
      rw [← List.cons_append]
      refine linked_unlink q.mem _ none none (s :: A) p x (y :: B1) ?_ ?_ ?_ ?_ ?_
      · rw [List.cons_append]; exact hlink
      · rw [List.cons_append]; exact hnodup
      · simp [firstPtr, hpx, Ne.symm hyp]
      · intro y1 B2 heq
        cases heq
        simp [firstPtr, hyx]
      · intro b h1 h2 h3
        have h4 : b ≠ y.1 := by
          intro heq
          exact h3 (by simp [firstPtr, heq])
        simp [h1, h2, h4]

/-- All three branches of `remove`, for the node `x` found after the real nodes `L1`. -/
theorem remove_split (q : State α) (s : Nat × α) (L1 : List (Nat × α)) (x : Nat × α)
    (B : List (Nat × α)) (h : WellFormed q s (L1 ++ x :: B)) :
    ∃ q1 x1, remove q { cur := some x.1 } = .ok (q1, x1) ∧
      WellFormed q1 s (L1 ++ B) ∧ q1.count + 1 = q.count ∧ q1.head = q.head ∧
      q1.mem.cells x.1 = none := by
  rcases List.eq_nil_or_concat L1 with rfl | ⟨A, p, rfl⟩
  · obtain ⟨q1, h1, h2, h3, h4, h5⟩ := remove_front q s x B h
    exact ⟨q1, _, h1, h2, h3, h4, h5⟩
  · rw [List.concat_eq_append, List.append_assoc] at h ⊢
    obtain ⟨q1, x1, h1, h2, h3, h4, h5, -⟩ := remove_back q s A p x B h
    exact ⟨q1, x1, h1, h2, h3, h4, h5⟩

/-- The function `remove` applied to an iterator on the `i`-th real node. -/
theorem remove_at (q : State α) (s : Nat × α) (l : List (Nat × α)) (i : Nat)
    (hi : i < l.length) (h : WellFormed q s l) :
    ∃ q1 x1, remove q { cur := some (l.get ⟨i, hi⟩).1 } = .ok (q1, x1) ∧
      WellFormed q1 s (l.eraseIdx i) ∧ q1.count + 1 = q.count ∧ q1.head = q.head ∧
      q1.mem.cells (l.get ⟨i, hi⟩).1 = none := by
  have hsplit : l = l.take i ++ l.get ⟨i, hi⟩ :: l.drop (i + 1) := by
    rw [List.get_eq_getElem, ← List.drop_eq_getElem_cons hi, List.take_append_drop]
  rw [List.eraseIdx_eq_take_drop_succ]
  rw [hsplit] at h
  exact remove_split q s _ _ _ h

/-! ## Iteration -/

theorem begin_spec (q : State α) (s : Nat × α) (l : List (Nat × α)) (h : WellFormed q s l) :
    begin q = .ok { cur := firstPtr l none } := by
  obtain ⟨hhead, -, -, hlink, -, -⟩ := h
  simp [begin, hhead, Heap.load, hlink.1, ok_bind, pure_eq_ok]

theorem fetch_linked (m : Heap α) (p n : Option Nat) (x : Nat × α) (r : List (Nat × α))
    (h : Linked m p (x :: r) n) : iterator.fetch m { cur := some x.1 } = .ok x.2 := by
  simp [iterator.fetch, Heap.load, h.1, ok_bind, pure_eq_ok]

theorem moveBack_linked (m : Heap α) (p n : Option Nat) (x : Nat × α) (r : List (Nat × α))
    (h : Linked m p (x :: r) n) :
    iterator.moveBack m { cur := some x.1 } = .ok { cur := firstPtr r n } := by
  simp [iterator.moveBack, Heap.load, h.1, ok_bind, pure_eq_ok]

theorem moveFront_linked (m : Heap α) (p n : Option Nat) (x : Nat × α) (r : List (Nat × α))
    (h : Linked m p (x :: r) n) :
    iterator.moveFront m { cur := some x.1 } = .ok { cur := p } := by
  simp [iterator.moveFront, Heap.load, h.1, ok_bind, pure_eq_ok]

/-- Walking `k` steps along a linked segment reads its first `k` values and stops on the
node after them. -/
theorem walk_linked (m : Heap α) (p : Option Nat) (l : List (Nat × α)) (k : Nat)
    (hk : k ≤ l.length) (h : Linked m p l none) :
    walk m k { cur := firstPtr l none } =
      .ok ((l.take k).map Prod.snd, { cur := firstPtr (l.drop k) none }) := by
  induction k generalizing p l with
  | zero => simp [walk, pure_eq_ok]
  | succ k ih =>
    cases l with
    | nil => simp at hk
    | cons x r =>
      have hk1 : k ≤ r.length := by simpa using hk
      have e : firstPtr (x :: r) none = some x.1 := rfl
      simp only [walk, e, fetch_linked m p none x r h, moveBack_linked m p none x r h,
        ok_bind, ih (some x.1) r hk1 h.2, pure_eq_ok, List.take_succ_cons, List.map_cons,
        List.drop_succ_cons]

theorem linked_drop (m : Heap α) (p n : Option Nat) (l : List (Nat × α)) (k : Nat)
    (h : Linked m p l n) : Linked m (lastPtr p (l.take k)) (l.drop k) n := by
  have h1 := h
  rw [← List.take_append_drop k l, linked_append] at h1
  exact h1.2

/-- The iterator `begin()` moved back `k` times references the `k`-th real node, and is
null after the last one. -/
theorem cursorAt_spec (q : State α) (s : Nat × α) (l : List (Nat × α)) (k : Nat)
    (hk : k ≤ l.length) (h : WellFormed q s l) :
    cursorAt q k = .ok { cur := firstPtr (l.drop k) none } := by
  induction k with
  | zero => simpa [cursorAt] using begin_spec q s l h
  | succ k ih =>
    have hk1 : k < l.length := hk
    have hl := linked_drop q.mem (some s.1) none l k h.2.2.2.1.2
    rw [List.drop_eq_getElem_cons hk1] at hl
    simp only [cursorAt, ih (Nat.le_of_lt hk1), ok_bind]
    rw [List.drop_eq_getElem_cons hk1]
    exact moveBack_linked _ _ _ _ _ hl

theorem firstPtr_drop_eq_none (l : List (Nat × α)) (k : Nat) (hk : k ≤ l.length) :
    firstPtr (l.drop k) none = none ↔ k = l.length := by
  constructor
  · intro h
    by_contra hne
    have hk1 : k < l.length := lt_of_le_of_ne hk hne
    rw [List.drop_eq_getElem_cons hk1] at h
    simp [firstPtr] at h
  · intro h
    subst h
    simp [firstPtr]

theorem firstPtr_drop_of_lt (l : List (Nat × α)) (k : Nat) (hk : k < l.length) :
    firstPtr (l.drop k) none = some (l.get ⟨k, hk⟩).1 := by
  rw [List.drop_eq_getElem_cons hk]
  rfl

/-- Every iterator on a linked real node is `begin()` moved back some `k < count` times,
so `Op.remove k` ranges over all calls of `remove` on such an iterator. -/
theorem cursorAt_covers (q : State α) (s : Nat × α) (l : List (Nat × α))
    (h : WellFormed q s l) (x : Nat × α) (hx : x ∈ l) :
    ∃ k, k < q.count ∧ cursorAt q k = .ok { cur := some x.1 } := by
  obtain ⟨⟨k, hk⟩, rfl⟩ := List.mem_iff_get.1 hx
  refine ⟨k, by rw [h.2.2.1]; exact hk, ?_⟩
  rw [cursorAt_spec q s l k (Nat.le_of_lt hk) h, firstPtr_drop_of_lt l k hk]

/-! ## Sequences of calls -/

theorem step_sim (ndebug : Bool) (q : State α) (s : Nat × α) (l : List (Nat × α)) (o : Op α)
    (ys : List α) (h : WellFormed q s l) (ho : o.spec (l.map Prod.snd) = some ys) :
    ∃ q1 s1 l1, step ndebug q o = .ok q1 ∧ WellFormed q1 s1 l1 ∧ l1.map Prod.snd = ys := by
  cases o with
  | push v =>
    obtain ⟨q1, h1, h2, -⟩ := push_spec q s l v h
    refine ⟨q1, s, _, h1, h2, ?_⟩
    simp only [Op.spec, Option.some.injEq] at ho
    simp [← ho]
  | pop =>
    cases l with
    | nil => simp [Op.spec] at ho
    | cons x rest =>
      obtain ⟨q1, h1, h2, -⟩ := pop_spec ndebug q s x rest h
      refine ⟨q1, x, rest, h1, h2, ?_⟩
      simpa [Op.spec] using ho
  | remove k =>
    simp only [Op.spec, List.length_map] at ho
    split at ho
    · rename_i hk
      obtain ⟨q1, x1, h1, h2, -⟩ := remove_at q s l k hk h
      refine ⟨q1, s, _, ?_, h2, ?_⟩
      · simp only [step, cursorAt_spec q s l k (Nat.le_of_lt hk) h, firstPtr_drop_of_lt l k hk,
          ok_bind, h1, pure_eq_ok]
      · simp only [Option.some.injEq] at ho
        rw [← ho]
        simp [List.eraseIdx_eq_take_drop_succ]
    · simp at ho

theorem run_sim (ndebug : Bool) (ops : List (Op α)) (q : State α) (s : Nat × α)
    (l : List (Nat × α)) (ys : List α) (h : WellFormed q s l)
    (ho : specRun ops (l.map Prod.snd) = some ys) :
    ∃ q1 s1 l1, run ndebug q ops = .ok q1 ∧ WellFormed q1 s1 l1 ∧ l1.map Prod.snd = ys := by
  induction ops generalizing q s l with
  | nil =>
    simp only [specRun, Option.some.injEq] at ho
    exact ⟨q, s, l, rfl, h, ho⟩
  | cons o os ih =>
    simp only [specRun] at ho
    split at ho
    · simp at ho
    · rename_i zs hz
      obtain ⟨q1, s1, l1, h1, h2, h3⟩ := step_sim ndebug q s l o zs h hz
      obtain ⟨q2, s2, l2, h4, h5, h6⟩ := ih q1 s1 l1 h2 (h3 ▸ ho)
      exact ⟨q2, s2, l2, by simp only [run, h1, ok_bind, h4], h5, h6⟩

theorem specRun_length (ops : List (Op α)) (xs ys : List α) (h : specRun ops xs = some ys) :
    ys.length + removals ops = xs.length + pushes ops := by
  induction ops generalizing xs with
  | nil =>
    simp only [specRun, Option.some.injEq] at h
    simp [removals, pushes, h]
  | cons o os ih =>
    simp only [specRun] at h
    split at h
    · simp at h
    · rename_i zs hz
      have := ih zs h
      cases o with
      | push v =>
        simp only [Op.spec, Option.some.injEq] at hz
        subst hz
        simp only [removals, pushes, List.length_append, List.length_singleton] at this ⊢
        omega
      | pop =>
        cases xs with
        | nil => simp [Op.spec] at hz
        | cons x r =>
          simp only [Op.spec, Option.some.injEq] at hz
          subst hz
          simp only [removals, pushes, List.length_cons] at this ⊢
          omega
      | remove k =>
        simp only [Op.spec] at hz
        split at hz
        · rename_i hk
          simp only [Option.some.injEq] at hz
          subst hz
          simp only [removals, pushes, List.length_eraseIdx, hk, if_true] at this ⊢
          omega
        · simp at hz

theorem traverse_spec (q : State α) (s : Nat × α) (l : List (Nat × α))
    (h : WellFormed q s l) : traverse q = .ok (l.map Prod.snd, end_ q) := by
  have hw := walk_linked q.mem (some s.1) l l.length (Nat.le_refl _) h.2.2.2.1.2
  rw [List.take_length, List.drop_length] at hw
  simp only [traverse, begin_spec q s l h, ok_bind, h.2.2.1, hw]
  rfl

theorem pushAll_spec (q : State α) (s : Nat × α) (l : List (Nat × α)) (xs : List α)
    (h : WellFormed q s l) :
    ∃ q1 l1, pushAll q xs = .ok q1 ∧ WellFormed q1 s (l ++ l1) ∧ l1.map Prod.snd = xs := by
  induction xs generalizing q l with
  | nil => exact ⟨q, [], rfl, by simpa using h, rfl⟩
  | cons v vs ih =>
    obtain ⟨q1, h1, h2, -⟩ := push_spec q s l v h
    obtain ⟨q2, l2, h3, h4, h5⟩ := ih q1 _ h2
    refine ⟨q2, (q.mem.fresh, v) :: l2, ?_, ?_, ?_⟩
    · simp only [pushAll, h1, ok_bind, h3]
    · simpa using h4
    · simp [h5]

theorem drain_spec (ndebug : Bool) (q : State α) (s : Nat × α) (l : List (Nat × α))
    (h : WellFormed q s l) :
    ∃ q1 s1, drain ndebug l.length q = .ok (l.map Prod.snd, q1) ∧ WellFormed q1 s1 [] := by
  induction l generalizing q s with
  | nil => exact ⟨q, s, rfl, h⟩
  | cons x rest ih =>
    obtain ⟨q1, h1, h2, -⟩ := pop_spec ndebug q s x rest h
    obtain ⟨q2, s2, h3, h4⟩ := ih q1 x h2
    refine ⟨q2, s2, ?_, h4⟩
    simp only [List.length_cons, drain, top_spec ndebug q s x rest h, ok_bind, h1, h3, pure_eq_ok,
      List.map_cons]

/-! ## Head, tail and the links in both directions -/

theorem tail_eq_head_iff (q : State α) (s : Nat × α) (l : List (Nat × α))
    (h : WellFormed q s l) : q.tail = q.head ↔ q.count = 0 := by
  obtain ⟨hhead, htail, hcount, -, hnodup, -⟩ := h
  rw [hhead, htail, hcount]
  cases l with
  | nil => simp [lastPtr]
  | cons x r =>
    obtain ⟨z, hz, he⟩ := lastPtr_of_ne_nil (x :: r) (List.cons_ne_nil _ _) (some s.1)
    rw [he]
    have hne : z.1 ≠ s.1 := by
      intro heq
      have := (List.nodup_cons.1 hnodup).1
      exact this (heq ▸ List.mem_map_of_mem _ hz)
    simp [hne]

theorem lastPtr_eq_getLast (s : Nat × α) (l : List (Nat × α)) :
    lastPtr (some s.1) l = ((s :: l).map Prod.fst).getLast? := by
  obtain ⟨A, t, hP⟩ := exists_snoc s l
  rw [← lastPtr_cons none, hP, lastPtr_snoc]
  simp

theorem trackBack_linked (m : Heap α) (p n : Option Nat) (l : List (Nat × α))
    (h : Linked m p l n) :
    trackBack m l.length { cur := firstPtr l n } =
      .ok (l.map (fun x => some x.1) ++ [n]) := by
  induction l generalizing p with
  | nil => rfl
  | cons x r ih =>
    have e : firstPtr (x :: r) n = some x.1 := rfl
    simp only [List.length_cons, trackBack, e, moveBack_linked m p n x r h, ok_bind,
      ih (some x.1) h.2, pure_eq_ok, List.map_cons, List.cons_append]

theorem trackFront_linked (m : Heap α) (p n : Option Nat) (l : List (Nat × α))
    (h : Linked m p l n) :
    trackFront m l.length { cur := lastPtr p l } =
      .ok (l.reverse.map (fun x => some x.1) ++ [p]) := by
  induction l using List.reverseRecOn generalizing n with
  | nil => rfl
  | append_singleton r t ih =>
    rw [linked_append] at h
    obtain ⟨hr, ht⟩ := h
    have hmove := moveFront_linked m (lastPtr p r) n t [] ht
    simp only [List.length_append, List.length_singleton, trackFront, lastPtr_snoc, hmove,
      ok_bind, ih (firstPtr [t] n) hr, pure_eq_ok, List.reverse_append, List.reverse_cons,
      List.reverse_nil, List.nil_append, List.singleton_append, List.map_cons, List.cons_append]

theorem stepCall_sim (ndebug : Bool) (q : State α) (s : Nat × α) (l : List (Nat × α))
    (c : Call α) (ys : List α) (h : WellFormed q s l)
    (hc : c.spec (l.map Prod.snd) = some ys) :
    ∃ q1 s1 l1, stepCall ndebug q c = .ok q1 ∧ WellFormed q1 s1 l1 ∧
      l1.map Prod.snd = ys := by
  cases c with
  | op o => exact step_sim ndebug q s l o ys h hc
  | removeEnd =>
    simp only [Call.spec, Option.some.injEq] at hc
    refine ⟨q, s, l, ?_, h, hc⟩
    simp [stepCall, remove, end_, pure_eq_ok, ok_bind]

theorem runCalls_sim (ndebug : Bool) (cs : List (Call α)) (q : State α) (s : Nat × α)
    (l : List (Nat × α)) (ys : List α) (h : WellFormed q s l)
    (hc : specCalls cs (l.map Prod.snd) = some ys) :
    ∃ q1 s1 l1, runCalls ndebug q cs = .ok q1 ∧ WellFormed q1 s1 l1 ∧
      l1.map Prod.snd = ys := by
  induction cs generalizing q s l with
  | nil =>
    simp only [specCalls, Option.some.injEq] at hc
    exact ⟨q, s, l, rfl, h, hc⟩
  | cons c cs ih =>
    simp only [specCalls] at hc
    split at hc
    · simp at hc
    · rename_i zs hz
      obtain ⟨q1, s1, l1, h1, h2, h3⟩ := stepCall_sim ndebug q s l c zs h hz
      obtain ⟨q2, s2, l2, h4, h5, h6⟩ := ih q1 s1 l1 h2 (h3 ▸ hc)
      exact ⟨q2, s2, l2, by simp only [runCalls, h1, ok_bind, h4], h5, h6⟩

/-! ## The node `head` points to -/

/-- Without `pop()`, a sequence of calls keeps the sentinel: the same node, the same
stored value. -/
theorem run_keep (ndebug : Bool) (ops : List (Op α)) (q : State α) (s : Nat × α)
    (l : List (Nat × α)) (ys : List α) (hp : hasPop ops = false) (h : WellFormed q s l)
    (ho : specRun ops (l.map Prod.snd) = some ys) :
    ∃ q1 l1, run ndebug q ops = .ok q1 ∧ WellFormed q1 s l1 ∧ l1.map Prod.snd = ys := by
  induction ops generalizing q l with
  | nil =>
    simp only [specRun, Option.some.injEq] at ho
    exact ⟨q, l, rfl, h, ho⟩
  | cons o os ih =>
    simp only [specRun] at ho
    split at ho
    · simp at ho
    · rename_i zs hz
      cases o with
      | push v =>
        obtain ⟨q1, h1, h2, -⟩ := push_spec q s l v h
        have hzs : (l ++ [(q.mem.fresh, v)]).map Prod.snd = zs := by
          simp only [Op.spec, Option.some.injEq] at hz
          simp [← hz]
        obtain ⟨q2, l2, h4, h5, h6⟩ := ih q1 _ (by simpa [hasPop] using hp) h2 (hzs ▸ ho)
        exact ⟨q2, l2, by simp only [run, step, h1, ok_bind, h4], h5, h6⟩
      | pop => simp [hasPop] at hp
      | remove k =>
        simp only [Op.spec, List.length_map] at hz
        split at hz
        · rename_i hk
          obtain ⟨q1, x1, h1, h2, -⟩ := remove_at q s l k hk h
          have hzs : (l.eraseIdx k).map Prod.snd = zs := by
            simp only [Option.some.injEq] at hz
            rw [← hz]
            simp [List.eraseIdx_eq_take_drop_succ]
          obtain ⟨q2, l2, h4, h5, h6⟩ := ih q1 _ (by simpa [hasPop] using hp) h2 (hzs ▸ ho)
          refine ⟨q2, l2, ?_, h5, h6⟩
          simp only [run, step, cursorAt_spec q s l k (Nat.le_of_lt hk) h,
            firstPtr_drop_of_lt l k hk, ok_bind, h1, pure_eq_ok, h4]
        · simp at hz

theorem fetch_head (q : State α) (s : Nat × α) (l : List (Nat × α))
    (h : WellFormed q s l) : iterator.fetch q.mem { cur := q.head } = .ok s.2 := by
  rw [h.1]
  exact fetch_linked _ _ _ _ _ h.2.2.2.1

/-- One call on a well-formed queue: `push` and `remove` keep `head` and what it stores,
`pop` deletes the sentinel and promotes the front node, whose `prev` becomes null. -/
theorem sentinel_step (ndebug : Bool) (q : State α) (s : Nat × α) (l : List (Nat × α))
    (hwf : WellFormed q s l) :
    (∀ v : α, ∃ q1 a, push q v = .ok q1 ∧ WellFormed q1 s (l ++ [(a, v)]) ∧
        q1.head = q.head ∧ iterator.fetch q1.mem { cur := q1.head } = .ok s.2) ∧
      (∀ (i : Nat) (hi : i < l.length),
        ∃ q1 x1, remove q { cur := some (l.get ⟨i, hi⟩).1 } = .ok (q1, x1) ∧
          WellFormed q1 s (l.eraseIdx i) ∧ q1.head = q.head ∧
          iterator.fetch q1.mem { cur := q1.head } = .ok s.2) ∧
      (∀ (x : Nat × α) (rest : List (Nat × α)), l = x :: rest →
        ∃ q1, pop ndebug q = .ok q1 ∧ WellFormed q1 x rest ∧
          q.mem.load (some x.1) =
            .ok { res := x.2, prev := some s.1, next := firstPtr rest none } ∧
          q1.head = some x.1 ∧ q1.head ≠ q.head ∧ q1.mem.cells s.1 = none ∧
          q1.mem.load q1.head =
            .ok { res := x.2, prev := none, next := firstPtr rest none }) := by
  refine ⟨?_, ?_, ?_⟩
  · intro v
    obtain ⟨q1, h1, h2, -, -, h5⟩ := push_spec q s l v hwf
    exact ⟨q1, _, h1, h2, h5, fetch_head q1 s _ h2⟩
  · intro i hi
    obtain ⟨q1, x1, h1, h2, -, h4, -⟩ := remove_at q s l i hi hwf
    exact ⟨q1, x1, h1, h2, h4, fetch_head q1 s _ h2⟩
  · intro x rest hl
    subst hl
    obtain ⟨q1, h1, h2, -, h4, -, h6⟩ := pop_spec ndebug q s x rest hwf
    have hx := hwf.2.2.2.1.2.1
    have hx1 := h2.2.2.2.1.1
    refine ⟨q1, h1, h2, by simp only [Heap.load, hx], h4, ?_, h6, ?_⟩
    · rw [h4, hwf.1]
      intro heq
      have hnd := hwf.2.2.2.2.1
      simp only [List.map_cons, List.nodup_cons, List.mem_cons, not_or] at hnd
      exact hnd.1.1 (Option.some.inj heq).symm
    · rw [h4]
      simp only [Heap.load, hx1]

/-! ## The destructor -/

/-- What `~CQueue()` does on a well-formed queue: with no element it frees nothing, with
one element it frees that node and leaves the sentinel live, with two or more it frees the
first real node and then reads `cur->next` of that deleted node. -/
theorem destructor_spec (q : State α) (s : Nat × α) (l : List (Nat × α)) (fuel : Nat)
    (hwf : WellFormed q s l) :
    (l = [] → destructor fuel q = some (.ok q)) ∧
      (∀ x, l = [x] → ∃ q1, destructor (fuel + 1) q = some (.ok q1) ∧
        q1.mem.cells s.1 = q.mem.cells s.1 ∧ q1.mem.cells x.1 = none) ∧
      (∀ x y rest, l = x :: y :: rest →
        destructor (fuel + 2) q = some (.error .danglingDeref)) := by
  obtain ⟨hhead, htail, -, hlink, hnodup, -⟩ := hwf
  refine ⟨?_, ?_, ?_⟩
  · intro hl
    subst hl
    have ht : q.tail = q.head := by rw [htail, hhead]; rfl
    unfold destructor
    rw [destructLoop.eq_def]
    simp only [ht, ne_eq, not_true_eq_false, if_false]
    cases q
    simp_all
  · intro x hl
    subst hl
    have ht : q.tail = some x.1 := by rw [htail]; rfl
    have hsx : s.1 ≠ x.1 := by
      intro heq
      simp [heq] at hnodup
    obtain ⟨hs, hx, -⟩ := hlink
    simp only [firstPtr] at hs hx
    unfold destructor
    rw [destructLoop.eq_def]
    simp only [hhead, ht, ne_eq, Option.some.injEq, hsx, not_false_eq_true, if_true, Heap.load,
      hs, firstPtr, Heap.delete, hx]
    rw [destructLoop.eq_def]
    simp [hsx, hs]
  · intro x y rest hl
    subst hl
    obtain ⟨w, hw, he⟩ := lastPtr_of_ne_nil (y :: rest) (List.cons_ne_nil _ _) (some x.1)
    have ht : q.tail = some w.1 := by rw [htail, lastPtr_cons]; exact he
    have hsw : s.1 ≠ w.1 := by
      intro heq
      have := (List.nodup_cons.1 hnodup).1
      exact this (heq ▸ List.mem_map_of_mem _ (List.mem_cons_of_mem _ hw))
    have hxw : x.1 ≠ w.1 := by
      intro heq
      have := (List.nodup_cons.1 (List.nodup_cons.1 hnodup).2).1
      exact this (heq ▸ List.mem_map_of_mem _ hw)
    obtain ⟨hs, hx, -⟩ := hlink
    simp only [firstPtr] at hs hx
    unfold destructor
    rw [destructLoop.eq_def]
    simp only [hhead, ht, ne_eq, Option.some.injEq, hsw, not_false_eq_true, if_true, Heap.load,
      hs, firstPtr, Heap.delete, hx]
    rw [destructLoop.eq_def]
    simp [hxw, Heap.load]

/-! ## The claims -/

/-- C1. FIFO order: pushing the values `xs` in order onto a freshly constructed queue
succeeds, and `|xs|` rounds of `top` then `pop` return exactly `xs` in the same order and
leave the queue empty. -/
theorem fifo_order [Inhabited α] (ndebug : Bool) (m : Heap α) (xs : List α) :
    ∃ q1 q2, pushAll (construct m) xs = .ok q1 ∧
      drain ndebug xs.length q1 = .ok (xs, q2) ∧ empty q2 = true := by
  obtain ⟨q1, l1, h1, h2, h3⟩ := pushAll_spec (construct m) _ [] xs (construct_wellFormed m)
  rw [List.nil_append] at h2
  obtain ⟨q2, s2, h4, h5⟩ := drain_spec ndebug q1 _ l1 h2
  refine ⟨q1, q2, h1, ?_, ?_⟩
  · rw [← h3, List.length_map]
    exact h4
  · simp [empty, h5.2.2.1]

/-- C2. Cursor removal: in a well-formed queue with real nodes `l`, `remove` called with
the cursor on the `i`-th real node (`begin()` moved back `i` times) succeeds, the values
iterated afterwards are those iterated before with the `i`-th erased, `count` has gone down
by exactly one, and the queue is well-formed again; front, tail and interior alike. -/
theorem remove_erases (q : State α) (s : Nat × α) (l : List (Nat × α)) (i : Nat)
    (hwf : WellFormed q s l) (hi : i < l.length) :
    ∃ x q1 x1, cursorAt q i = .ok x ∧ x.cur = some (l.get ⟨i, hi⟩).1 ∧
      remove q x = .ok (q1, x1) ∧
      traverse q = .ok (l.map Prod.snd, end_ q) ∧
      traverse q1 = .ok ((l.map Prod.snd).eraseIdx i, end_ q1) ∧
      q1.count + 1 = q.count ∧ WellFormed q1 s (l.eraseIdx i) := by
  obtain ⟨q1, x1, h1, h2, h3, -⟩ := remove_at q s l i hi hwf
  refine ⟨_, q1, x1, cursorAt_spec q s l i (Nat.le_of_lt hi) hwf, firstPtr_drop_of_lt l i hi,
    ?_, traverse_spec q s l hwf, ?_, h3, h2⟩
  · rw [firstPtr_drop_of_lt l i hi]
    exact h1
  · rw [traverse_spec q1 s _ h2]
    simp [List.eraseIdx_eq_take_drop_succ]

theorem remove_erases_witness :
    WellFormed sampleQueue (0, 0) sampleNodes ∧ 1 < sampleNodes.length ∧
      ∃ x q1 x1, cursorAt sampleQueue 1 = .ok x ∧ x.cur = some 2 ∧
        remove sampleQueue x = .ok (q1, x1) ∧
        traverse sampleQueue = .ok ([10, 20, 30], end_ sampleQueue) ∧
        traverse q1 = .ok ([10, 30], end_ q1) ∧
        q1.count + 1 = 3 ∧ WellFormed q1 (0, 0) [(1, 10), (3, 30)] :=
  ⟨by decide, by decide,
    remove_erases sampleQueue (0, 0) sampleNodes 1 (by decide) (by decide)⟩

/-- C3. Iteration completeness: after any sequence of calls that respects the
preconditions, started on a fresh queue, `begin()` followed by `k ≤ count` rounds of
`fetch` then `moveBack` has read the first `k` remaining elements in insertion order, and
the iterator equals `end()` exactly when `k = count`. -/
theorem iteration_complete [Inhabited α] (ndebug : Bool) (m : Heap α) (ops : List (Op α))
    (xs : List α) (h : specRun ops [] = some xs) :
    ∃ q b, run ndebug (construct m) ops = .ok q ∧ begin q = .ok b ∧ q.count = xs.length ∧
      ∀ k, k ≤ q.count → ∃ x, walk q.mem k b = .ok (xs.take k, x) ∧
        (x.eq (end_ q) = true ↔ k = q.count) := by
  obtain ⟨q, s, l, h1, h2, h3⟩ :=
    run_sim ndebug ops (construct m) _ [] xs (construct_wellFormed m) h
  have hc : q.count = xs.length := by rw [h2.2.2.1, ← h3, List.length_map]
  refine ⟨q, _, h1, begin_spec q s l h2, hc, ?_⟩
  intro k hk
  have hk1 : k ≤ l.length := by rw [← h2.2.2.1]; exact hk
  refine ⟨{ cur := firstPtr (l.drop k) none }, ?_, ?_⟩
  · rw [walk_linked q.mem (some s.1) l k hk1 h2.2.2.2.1.2, ← h3, List.map_take]
  · simp only [iterator.eq, end_, decide_eq_true_eq, h2.2.2.1]
    exact firstPtr_drop_eq_none l k hk1

theorem iteration_complete_witness :
    specRun sampleOps [] = some [3, 4] ∧
      ∃ q b, run true (construct Heap.empty) sampleOps = .ok q ∧ begin q = .ok b ∧
        q.count = 2 ∧
        ∀ k, k ≤ q.count → ∃ x, walk q.mem k b = .ok ([3, 4].take k, x) ∧
          (x.eq (end_ q) = true ↔ k = q.count) :=
  ⟨by decide, iteration_complete true Heap.empty sampleOps [3, 4] (by decide)⟩

/-- C4. Size invariant: after any sequence of calls that respects the preconditions,
started on a fresh queue, `count` is the number of pushes minus the number of pops and
removes, and `empty()` is true exactly when `count == 0`. -/
theorem size_invariant [Inhabited α] (ndebug : Bool) (m : Heap α) (ops : List (Op α))
    (xs : List α) (h : specRun ops [] = some xs) :
    ∃ q, run ndebug (construct m) ops = .ok q ∧ removals ops ≤ pushes ops ∧
      q.count = pushes ops - removals ops ∧ (empty q = true ↔ q.count = 0) := by
  obtain ⟨q, s, l, h1, h2, h3⟩ :=
    run_sim ndebug ops (construct m) _ [] xs (construct_wellFormed m) h
  have hc : q.count = xs.length := by rw [h2.2.2.1, ← h3, List.length_map]
  have hl := specRun_length ops [] xs h
  simp only [List.length_nil, Nat.zero_add] at hl
  refine ⟨q, h1, by omega, by omega, by simp [empty]⟩

theorem size_invariant_witness :
    specRun sampleOps [] = some [3, 4] ∧
      ∃ q, run false (construct Heap.empty) sampleOps = .ok q ∧ 2 ≤ 4 ∧
        q.count = 4 - 2 ∧ (empty q = true ↔ q.count = 0) :=
  ⟨by decide, size_invariant false Heap.empty sampleOps [3, 4] (by decide)⟩

/-- C5. Push only appends: on a well-formed queue `push(v)` succeeds, the new node (at
address `a`) is linked after the former nodes and is the tail, `count` has grown by one,
iteration reads the former values followed by `v`, and every node linked before (the
sentinel included) is still linked and a cursor on it reads the same value as before. -/
theorem push_appends (q : State α) (s : Nat × α) (l : List (Nat × α)) (v : α)
    (hwf : WellFormed q s l) :
    ∃ q1 a, push q v = .ok q1 ∧ WellFormed q1 s (l ++ [(a, v)]) ∧ q1.tail = some a ∧
      q1.count = q.count + 1 ∧
      traverse q = .ok (l.map Prod.snd, end_ q) ∧
      traverse q1 = .ok (l.map Prod.snd ++ [v], end_ q1) ∧
      ∀ x ∈ s :: l, iterator.fetch q.mem { cur := some x.1 } = .ok x.2 ∧
        iterator.fetch q1.mem { cur := some x.1 } = .ok x.2 := by
  obtain ⟨q1, h1, h2, h3, h4, -⟩ := push_spec q s l v hwf
  refine ⟨q1, q.mem.fresh, h1, h2, h3, h4, traverse_spec q s l hwf, ?_, ?_⟩
  · rw [traverse_spec q1 s _ h2]
    simp
  · intro x hx
    refine ⟨fetch_of_linked _ _ _ _ x hwf.2.2.2.1 hx, fetch_of_linked _ _ _ _ x h2.2.2.2.1 ?_⟩
    rcases List.mem_cons.1 hx with rfl | hx
    · exact List.mem_cons_self _ _
    · exact List.mem_cons_of_mem _ (List.mem_append_left _ hx)

theorem push_appends_witness :
    WellFormed sampleQueue (0, 0) sampleNodes ∧
      ∃ q1 a, push sampleQueue 40 = .ok q1 ∧ WellFormed q1 (0, 0) (sampleNodes ++ [(a, 40)]) ∧
        q1.tail = some a ∧ q1.count = 3 + 1 ∧
        traverse sampleQueue = .ok ([10, 20, 30], end_ sampleQueue) ∧
        traverse q1 = .ok ([10, 20, 30] ++ [40], end_ q1) ∧
        ∀ x ∈ (0, 0) :: sampleNodes,
          iterator.fetch sampleQueue.mem { cur := some x.1 } = .ok x.2 ∧
          iterator.fetch q1.mem { cur := some x.1 } = .ok x.2 :=
  ⟨by decide, push_appends sampleQueue (0, 0) sampleNodes 40 (by decide)⟩

/-- C6. Top is a pure peek: on a well-formed queue whose first real node stores `x.2`,
`top()` returns that value and the state it leaves is the state it was called on (head,
tail, count and memory); a second `top()` right after returns the same value. -/
theorem top_peeks (ndebug : Bool) (q : State α) (s x : Nat × α) (rest : List (Nat × α))
    (hwf : WellFormed q s (x :: rest)) :
    top ndebug q = .ok (x.2, q) ∧
      (top ndebug q >>= fun r => top ndebug r.2) = .ok (x.2, q) := by
  have h := top_spec ndebug q s x rest hwf
  exact ⟨h, by rw [h, ok_bind]; exact h⟩

theorem top_peeks_witness :
    WellFormed sampleQueue (0, 0) ((1, 10) :: [(2, 20), (3, 30)]) ∧
      top false sampleQueue = .ok (10, sampleQueue) ∧
      (top false sampleQueue >>= fun r => top false r.2) = .ok (10, sampleQueue) :=
  ⟨by decide, top_peeks false sampleQueue (0, 0) (1, 10) [(2, 20), (3, 30)] (by decide)⟩

/-- C7, as stated, fails: compiled with `NDEBUG`, `pop()` on the empty queue that the
constructor builds returns normally, with the state unchanged and no failure. -/
theorem pop_empty_not_reported :
    (construct (Heap.empty : Heap Nat)).count = 0 ∧
      pop true (construct (Heap.empty : Heap Nat)) = .ok (construct Heap.empty) :=
  ⟨rfl, rfl⟩

/-- C7, amended. `pop()` with `count == 0` never changes the queue: with assertions
compiled in, the `assert` fails and the process aborts; with `NDEBUG` the call returns
normally with the state it was given and reports nothing. -/
theorem pop_empty (ndebug : Bool) (q : State α) (h : q.count = 0) :
    pop ndebug q = (if ndebug = true then .ok q else .error .assertFailed) := by
  cases ndebug <;> simp [pop, h, pure_eq_ok]

theorem pop_empty_witness :
    (construct (Heap.empty : Heap Nat)).count = 0 ∧
      pop false (construct (Heap.empty : Heap Nat)) =
        (if false = true then .ok (construct Heap.empty) else .error .assertFailed) :=
  ⟨rfl, pop_empty false (construct Heap.empty) rfl⟩

/-- C8 at its failing input: compiled with `NDEBUG`, `top()` on the empty queue that the
constructor builds runs off the end of the function without a `return`, which is undefined
behaviour and not a reported failure; with assertions compiled in, the `assert` fails. -/
theorem top_empty_falls_through :
    (construct (Heap.empty : Heap Nat)).count = 0 ∧
      top true (construct (Heap.empty : Heap Nat)) = .error .noReturn ∧
      Fault.noReturn.reported = false ∧
      top false (construct (Heap.empty : Heap Nat)) = .error .assertFailed :=
  ⟨rfl, rfl, rfl, rfl⟩

/-- C9, as stated, fails: `fetch()` on `end()` dereferences the null pointer, which is
undefined behaviour and not a reported failure. -/
theorem fetch_end_not_reported :
    iterator.fetch (construct (Heap.empty : Heap Nat)).mem
        (end_ (construct (Heap.empty : Heap Nat))) = .error .nullDeref ∧
      Fault.nullDeref.reported = false :=
  ⟨rfl, rfl⟩

/-- C9, amended. `fetch()` tests nothing: on a cursor that references "none" it
dereferences the null pointer, which is undefined behaviour that nothing reports, and no
value comes back; `fetch()` returns a value only when the cursor references a node, that
is, when `cur` is not null.  On a cursor that references a live node the value returned is
the one stored there.  Nothing is said about a cursor on a deleted node. -/
theorem fetch_spec (m : Heap α) :
    iterator.fetch m { cur := none } = .error .nullDeref ∧
      Fault.nullDeref.reported = false ∧
      (∀ (x : iterator) (v : α), iterator.fetch m x = .ok v → x.cur ≠ none) ∧
      ∀ (a : Nat) (e : Element α), m.cells a = some e →
        iterator.fetch m { cur := some a } = .ok e.res := by
  refine ⟨rfl, rfl, ?_, ?_⟩
  · intro x v hv hnone
    obtain ⟨c⟩ := x
    simp only at hnone
    subst hnone
    simp [iterator.fetch, Heap.load, error_bind] at hv
  · intro a e he
    simp [iterator.fetch, Heap.load, he, ok_bind, pure_eq_ok]

/-- C10. `remove(end())` is a no-op: in every state, empty or not, well-formed or not,
`remove` with a cursor that references "none" returns the state (head, tail, count,
memory) and the cursor it was given. -/
theorem remove_none_noop (q : State α) :
    remove q (end_ q) = .ok (q, end_ q) ∧
      ∀ x : iterator, x.isNull = true → remove q x = .ok (q, x) := by
  refine ⟨by simp [remove, end_, pure_eq_ok], ?_⟩
  intro x hx
  have : x.cur = none := by simpa [iterator.isNull] using hx
  simp [remove, this, pure_eq_ok]

/-- C11, as stated, fails: in the queue holding one element the tail node is also the
front node, `remove` on a cursor that references it takes the front branch, and the cursor
still holds the address 1 of the removed (now deleted) node, not the address 0 of its
former predecessor; `tail` does become that predecessor. -/
theorem remove_single_tail_keeps_cursor :
    WellFormed singleQueue (0, 0) [(1, 10)] ∧ singleQueue.tail = some 1 ∧
      (singleQueue.mem.load singleQueue.tail).map (fun e => e.prev) = .ok (some 0) ∧
      (remove singleQueue { cur := singleQueue.tail }).map
          (fun r => (r.2.cur, r.1.tail, (r.1.mem.cells 1).isSome)) =
        .ok (some 1, some 0, false) :=
  ⟨by decide, rfl, rfl, rfl⟩

/-- C11, amended. In a well-formed non-empty queue, `remove` on a cursor that references
the tail node succeeds and `tail` becomes the removed node's former predecessor; with at
least two elements the cursor references that predecessor too, with exactly one element
(the front branch) the cursor is left as it was. -/
theorem remove_tail_cursor (q : State α) (s : Nat × α) (l : List (Nat × α))
    (hwf : WellFormed q s l) (hne : l ≠ []) :
    ∃ e q1 x1, q.mem.load q.tail = .ok e ∧ remove q { cur := q.tail } = .ok (q1, x1) ∧
      q1.tail = e.prev ∧ (2 ≤ l.length → x1.cur = e.prev) ∧
      (l.length = 1 → x1.cur = q.tail) := by
  rcases List.eq_nil_or_concat l with rfl | ⟨L, x, rfl⟩
  · exact absurd rfl hne
  rw [List.concat_eq_append] at hwf ⊢
  have htail : q.tail = some x.1 := by rw [hwf.2.1, lastPtr_snoc]
  have hl := hwf.2.2.2.1
  rw [← List.cons_append, linked_append] at hl
  have hx := hl.2.1
  have hload : q.mem.load q.tail =
      .ok { res := x.2, prev := lastPtr (some s.1) L, next := none } := by
    rw [htail]
    simp only [Heap.load, hx]
    rfl
  rw [htail] at hload ⊢
  rcases List.eq_nil_or_concat L with rfl | ⟨A, p, rfl⟩
  · obtain ⟨q1, h1, h2, -⟩ := remove_front q s x [] hwf
    refine ⟨_, q1, _, hload, h1, h2.2.1, ?_, ?_⟩
    · intro h; simp at h
    · intro _; rfl
  · rw [List.concat_eq_append] at hwf hload ⊢
    rw [List.append_assoc] at hwf
    obtain ⟨q1, x1, h1, h2, -, -, -, h6⟩ := remove_back q s A p x [] hwf
    refine ⟨_, q1, x1, hload, h1, ?_, ?_, ?_⟩
    · exact h2.2.1
    · intro _
      rw [h6]
      simp [lastPtr_snoc]
    · intro h; simp at h

theorem remove_tail_cursor_witness :
    WellFormed sampleQueue (0, 0) sampleNodes ∧ sampleNodes ≠ [] ∧
      ∃ e q1 x1, sampleQueue.mem.load sampleQueue.tail = .ok e ∧
        remove sampleQueue { cur := sampleQueue.tail } = .ok (q1, x1) ∧
        q1.tail = e.prev ∧ (2 ≤ sampleNodes.length → x1.cur = e.prev) ∧
        (sampleNodes.length = 1 → x1.cur = sampleQueue.tail) :=
  ⟨by decide, by decide,
    remove_tail_cursor sampleQueue (0, 0) sampleNodes (by decide) (by decide)⟩

/-- C12, as stated, fails: after removing the front node (address 1) or the interior
node (address 2) of the queue holding 10, 20, 30, the cursor still holds the address of the
removed node, `isNull()` is false, and that node is deleted. -/
theorem remove_leaves_cursor_dangling :
    WellFormed sampleQueue (0, 0) sampleNodes ∧
      (remove sampleQueue { cur := some 1 }).map
          (fun r => (r.2.cur, r.2.isNull, (r.1.mem.cells 1).isSome)) =
        .ok (some 1, false, false) ∧
      (remove sampleQueue { cur := some 2 }).map
          (fun r => (r.2.cur, r.2.isNull, (r.1.mem.cells 2).isSome)) =
        .ok (some 2, false, false) :=
  ⟨by decide, rfl, rfl⟩

/-- C12, amended. After a front removal (`L1` empty) or an interior removal (`L1` and `B`
non-empty) the cursor is the one passed in: it is not null and still holds the address of
the removed node, which is deleted, so a `fetch` through it accesses a deleted node. -/
theorem remove_front_interior_cursor (q : State α) (s : Nat × α) (L1 : List (Nat × α))
    (x : Nat × α) (B : List (Nat × α)) (hwf : WellFormed q s (L1 ++ x :: B))
    (hb : L1 = [] ∨ B ≠ []) :
    ∃ q1, remove q { cur := some x.1 } = .ok (q1, { cur := some x.1 }) ∧
      iterator.isNull { cur := some x.1 } = false ∧ q1.mem.cells x.1 = none ∧
      iterator.fetch q1.mem { cur := some x.1 } = .error .danglingDeref := by
  have key : ∃ q1, remove q { cur := some x.1 } = .ok (q1, { cur := some x.1 }) ∧
      q1.mem.cells x.1 = none := by
    rcases List.eq_nil_or_concat L1 with rfl | ⟨A, p, rfl⟩
    · obtain ⟨q1, h1, -, -, -, h5⟩ := remove_front q s x B hwf
      exact ⟨q1, h1, h5⟩
    · have hB : B ≠ [] := by
        rcases hb with h | h
        · simp at h
        · exact h
      rw [List.concat_eq_append, List.append_assoc] at hwf
      obtain ⟨q1, x1, h1, -, -, -, h5, h6⟩ := remove_back q s A p x B hwf
      have hx1 : x1 = { cur := some x.1 } := by
        cases x1
        cases B with
        | nil => exact absurd rfl hB
        | cons y r => simpa using h6
      rw [hx1] at h1
      exact ⟨q1, h1, h5⟩
  obtain ⟨q1, h1, h5⟩ := key
  refine ⟨q1, h1, rfl, h5, ?_⟩
  simp [iterator.fetch, Heap.load, h5, error_bind]

theorem remove_front_interior_cursor_witness :
    WellFormed sampleQueue (0, 0) ([(1, 10)] ++ (2, 20) :: [(3, 30)]) ∧
      ([(1, 10)] = ([] : List (Nat × Nat)) ∨ [((3 : Nat), (30 : Nat))] ≠ []) ∧
      ∃ q1, remove sampleQueue { cur := some 2 } = .ok (q1, { cur := some 2 }) ∧
        iterator.isNull { cur := some 2 } = false ∧ q1.mem.cells 2 = none ∧
        iterator.fetch q1.mem { cur := some 2 } = .error .danglingDeref :=
  ⟨by decide, by decide,
    remove_front_interior_cursor sampleQueue (0, 0) [(1, 10)] (2, 20) [(3, 30)]
      (by decide) (by decide)⟩

/-- C13. After any sequence of `push`, `pop` on a non-empty queue, `remove(end())` and
`remove` on a cursor on a linked real node, started on a fresh queue, every call has
succeeded and `tail == head` holds exactly when `count == 0`. -/
theorem tail_is_head_iff_empty [Inhabited α] (ndebug : Bool) (m : Heap α)
    (cs : List (Call α)) (xs : List α) (h : specCalls cs [] = some xs) :
    ∃ q, runCalls ndebug (construct m) cs = .ok q ∧ (q.tail = q.head ↔ q.count = 0) := by
  obtain ⟨q, s, l, h1, h2, -⟩ :=
    runCalls_sim ndebug cs (construct m) _ [] xs (construct_wellFormed m) h
  exact ⟨q, h1, tail_eq_head_iff q s l h2⟩

theorem tail_is_head_iff_empty_witness :
    specCalls sampleCalls [] = some [] ∧
      ∃ q, runCalls true (construct Heap.empty) sampleCalls = .ok q ∧
        (q.tail = q.head ↔ q.count = 0) :=
  ⟨by decide, tail_is_head_iff_empty true Heap.empty sampleCalls [] (by decide)⟩

/-- C14. Link structure: after any sequence of calls that respects the preconditions,
started on a fresh queue, there are `count` distinct real nodes `ns` such that `moveBack`
from the sentinel `head` visits `ns` in order and then reaches null, `tail` is the last
node visited, and `moveFront` from `tail` visits the same nodes in reverse order, then the
sentinel, then reaches null. -/
theorem link_structure [Inhabited α] (ndebug : Bool) (m : Heap α) (ops : List (Op α))
    (xs : List α) (h : specRun ops [] = some xs) :
    ∃ q hd ns, run ndebug (construct m) ops = .ok q ∧ q.head = some hd ∧
      ns.length = q.count ∧ (hd :: ns).Nodup ∧
      trackBack q.mem (q.count + 1) { cur := q.head } =
        .ok ((hd :: ns).map some ++ [none]) ∧
      q.tail = (hd :: ns).getLast? ∧
      trackFront q.mem (q.count + 1) { cur := q.tail } =
        .ok ((hd :: ns).reverse.map some ++ [none]) := by
  obtain ⟨q, s, l, h1, h2, -⟩ :=
    run_sim ndebug ops (construct m) _ [] xs (construct_wellFormed m) h
  obtain ⟨hhead, htail, hcount, hlink, hnodup, -⟩ := h2
  refine ⟨q, s.1, l.map Prod.fst, h1, hhead, by simp [hcount], hnodup, ?_, ?_, ?_⟩
  · have ht := trackBack_linked q.mem none none (s :: l) hlink
    rw [hcount, hhead]
    simpa [firstPtr, Function.comp_def] using ht
  · rw [htail]
    exact lastPtr_eq_getLast s l
  · have ht := trackFront_linked q.mem none none (s :: l) hlink
    rw [hcount, htail]
    rw [lastPtr_cons] at ht
    simpa [Function.comp_def] using ht

theorem link_structure_witness :
    specRun sampleOps [] = some [3, 4] ∧
      ∃ q hd ns, run true (construct Heap.empty) sampleOps = .ok q ∧ q.head = some hd ∧
        ns.length = q.count ∧ (hd :: ns).Nodup ∧
        trackBack q.mem (q.count + 1) { cur := q.head } =
          .ok ((hd :: ns).map some ++ [none]) ∧
        q.tail = (hd :: ns).getLast? ∧
        trackFront q.mem (q.count + 1) { cur := q.tail } =
          .ok ((hd :: ns).reverse.map some ++ [none]) :=
  ⟨by decide, link_structure true Heap.empty sampleOps [3, 4] (by decide)⟩

/-- C15, as stated, fails: after `push(7)`, `push(8)`, `pop()` on a fresh queue, `head`
is the node at address 1 that `push(7)` allocated, not the node at address 0 the
constructor allocated, which is deleted; and `head` stores the user value 7. -/
theorem pop_replaces_sentinel :
    (construct (Heap.empty : Heap Nat)).head = some 0 ∧
      (run true (construct (Heap.empty : Heap Nat)) [.push 7, .push 8, .pop]).map
          (fun q => (q.head, (q.mem.cells 0).isSome, iterator.fetch q.mem { cur := q.head })) =
        .ok (some 1, false, .ok 7) :=
  ⟨rfl, rfl⟩

/-- C15, amended. After any sequence of calls that respects the preconditions, started
on a fresh queue: if no `pop()` was among them, `head` is the node the constructor
allocated and stores the default-constructed placeholder; a further `push` or `remove` on
a linked real node keeps `head` and the value stored in it.  A successful `pop` does not
keep the sentinel: it deletes the old sentinel and makes the old front node the new
`head`, with its `prev` reset from the old sentinel to null and still storing the value
just popped.  Each of these calls leaves a well-formed queue. -/
theorem sentinel_fate [Inhabited α] (ndebug : Bool) (m : Heap α) (ops : List (Op α))
    (xs : List α) (h : specRun ops [] = some xs) :
    ∃ q s l, run ndebug (construct m) ops = .ok q ∧ WellFormed q s l ∧
      l.map Prod.snd = xs ∧
      (hasPop ops = false →
        q.head = (construct m).head ∧
          iterator.fetch q.mem { cur := q.head } = .ok default) ∧
      (∀ v : α, ∃ q1 a, push q v = .ok q1 ∧ WellFormed q1 s (l ++ [(a, v)]) ∧
        q1.head = q.head ∧ iterator.fetch q1.mem { cur := q1.head } = .ok s.2) ∧
      (∀ (i : Nat) (hi : i < l.length),
        ∃ q1 x1, remove q { cur := some (l.get ⟨i, hi⟩).1 } = .ok (q1, x1) ∧
          WellFormed q1 s (l.eraseIdx i) ∧ q1.head = q.head ∧
          iterator.fetch q1.mem { cur := q1.head } = .ok s.2) ∧
      (∀ (x : Nat × α) (rest : List (Nat × α)), l = x :: rest →
        ∃ q1, pop ndebug q = .ok q1 ∧ WellFormed q1 x rest ∧
          q.mem.load (some x.1) =
            .ok { res := x.2, prev := some s.1, next := firstPtr rest none } ∧
          q1.head = some x.1 ∧ q1.head ≠ q.head ∧ q1.mem.cells s.1 = none ∧
          q1.mem.load q1.head =
            .ok { res := x.2, prev := none, next := firstPtr rest none }) := by
  cases hp : hasPop ops with
  | false =>
    obtain ⟨q, l, h1, h2, h3⟩ :=
      run_keep ndebug ops (construct m) _ [] xs hp (construct_wellFormed m) h
    obtain ⟨s1, s2, s3⟩ := sentinel_step ndebug q _ l h2
    refine ⟨q, _, l, h1, h2, h3, ?_, s1, s2, s3⟩
    intro _
    exact ⟨h2.1, fetch_head q _ l h2⟩
  | true =>
    obtain ⟨q, s, l, h1, h2, h3⟩ :=
      run_sim ndebug ops (construct m) _ [] xs (construct_wellFormed m) h
    obtain ⟨s1, s2, s3⟩ := sentinel_step ndebug q s l h2
    refine ⟨q, s, l, h1, h2, h3, ?_, s1, s2, s3⟩
    intro hf
    exact absurd hf (by simp)

theorem sentinel_fate_witness :
    specRun sampleGrowth [] = some [1, 3] ∧
      ∃ q s l, run false (construct Heap.empty) sampleGrowth = .ok q ∧ WellFormed q s l ∧
        l.map Prod.snd = [1, 3] ∧
        (hasPop sampleGrowth = false →
          q.head = (construct (Heap.empty : Heap Nat)).head ∧
            iterator.fetch q.mem { cur := q.head } = .ok default) ∧
        (∀ v : Nat, ∃ q1 a, push q v = .ok q1 ∧ WellFormed q1 s (l ++ [(a, v)]) ∧
          q1.head = q.head ∧ iterator.fetch q1.mem { cur := q1.head } = .ok s.2) ∧
        (∀ (i : Nat) (hi : i < l.length),
          ∃ q1 x1, remove q { cur := some (l.get ⟨i, hi⟩).1 } = .ok (q1, x1) ∧
            WellFormed q1 s (l.eraseIdx i) ∧ q1.head = q.head ∧
            iterator.fetch q1.mem { cur := q1.head } = .ok s.2) ∧
        (∀ (x : Nat × Nat) (rest : List (Nat × Nat)), l = x :: rest →
          ∃ q1, pop false q = .ok q1 ∧ WellFormed q1 x rest ∧
            q.mem.load (some x.1) =
              .ok { res := x.2, prev := some s.1, next := firstPtr rest none } ∧
            q1.head = some x.1 ∧ q1.head ≠ q.head ∧ q1.mem.cells s.1 = none ∧
            q1.mem.load q1.head =
              .ok { res := x.2, prev := none, next := firstPtr rest none }) :=
  ⟨by decide, sentinel_fate false Heap.empty sampleGrowth [1, 3] (by decide)⟩

/-- C16. In a well-formed non-empty queue, `begin()` moved front once references the
sentinel `head`: it is not null, `isNull()` is false and it differs from `end()`.  In any
memory, `moveBack()` and `moveFront()` leave a null iterator null. -/
theorem begin_moveFront_is_sentinel (q : State α) (s x : Nat × α) (rest : List (Nat × α))
    (hwf : WellFormed q s (x :: rest)) :
    ∃ b b1, begin q = .ok b ∧ iterator.moveFront q.mem b = .ok b1 ∧ b1.cur = q.head ∧
      b1.cur ≠ none ∧ b1.isNull = false ∧ b1.eq (end_ q) = false ∧
      ∀ m1 : Heap α, iterator.moveBack m1 { cur := none } = .ok { cur := none } ∧
        iterator.moveFront m1 { cur := none } = .ok { cur := none } := by
  have hb := begin_spec q s _ hwf
  have hx := hwf.2.2.2.1.2
  refine ⟨_, { cur := some s.1 }, hb, moveFront_linked _ _ _ _ _ hx, hwf.1.symm, by simp,
    by simp [iterator.isNull], by simp [iterator.eq, end_], ?_⟩
  intro m1
  exact ⟨rfl, rfl⟩

theorem begin_moveFront_is_sentinel_witness :
    WellFormed sampleQueue (0, 0) ((1, 10) :: [(2, 20), (3, 30)]) ∧
      ∃ b b1, begin sampleQueue = .ok b ∧ iterator.moveFront sampleQueue.mem b = .ok b1 ∧
        b1.cur = sampleQueue.head ∧ b1.cur ≠ none ∧ b1.isNull = false ∧
        b1.eq (end_ sampleQueue) = false ∧
        ∀ m1 : Heap Nat, iterator.moveBack m1 { cur := none } = .ok { cur := none } ∧
          iterator.moveFront m1 { cur := none } = .ok { cur := none } :=
  ⟨by decide,
    begin_moveFront_is_sentinel sampleQueue (0, 0) (1, 10) [(2, 20), (3, 30)] (by decide)⟩

/-- C17 at its failing inputs.  On the empty queue the constructor builds, `~CQueue()`
frees nothing: the sentinel at address 0 stays live.  On the queue holding one element it
frees the real node and leaves the sentinel live.  On the queue holding 10, 20, 30 it
deletes the first real node and, in the second iteration, reads `cur->next` of that
deleted node. -/
theorem destructor_leaks_and_reads_deleted :
    (destructor 8 (construct (Heap.empty : Heap Nat))).map
        (Except.map fun q => (q.mem.cells 0).isSome) = some (.ok true) ∧
      WellFormed singleQueue (0, 0) [(1, 10)] ∧
      (destructor 8 singleQueue).map
        (Except.map fun q => ((q.mem.cells 0).isSome, (q.mem.cells 1).isSome)) =
          some (.ok (true, false)) ∧
      WellFormed sampleQueue (0, 0) sampleNodes ∧
      destructor 8 sampleQueue = some (.error .danglingDeref) :=
  ⟨rfl, by decide, rfl, by decide, rfl⟩

/-- C18. On a well-formed non-empty queue, `pop()` and `remove(begin())` both succeed
and agree on what can be observed of the contents: the same `count`, the same values
iterated (the former contents without the first), and in both results `tail == head`
exactly when the result is empty. -/
theorem pop_equiv_remove_begin (ndebug : Bool) (q : State α) (s x : Nat × α)
    (rest : List (Nat × α)) (hwf : WellFormed q s (x :: rest)) :
    ∃ b qp qr xr, begin q = .ok b ∧ pop ndebug q = .ok qp ∧ remove q b = .ok (qr, xr) ∧
      qp.count = qr.count ∧
      traverse q = .ok (x.2 :: rest.map Prod.snd, end_ q) ∧
      traverse qp = .ok (rest.map Prod.snd, end_ qp) ∧
      traverse qr = .ok (rest.map Prod.snd, end_ qr) ∧
      (qp.tail = qp.head ↔ empty qp = true) ∧ (qr.tail = qr.head ↔ empty qr = true) := by
  obtain ⟨qp, hp1, hp2, hp3, -⟩ := pop_spec ndebug q s x rest hwf
  obtain ⟨qr, hr1, hr2, hr3, -⟩ := remove_front q s x rest hwf
  refine ⟨_, qp, qr, _, begin_spec q s _ hwf, hp1, hr1, by omega, traverse_spec q s _ hwf,
    traverse_spec qp x rest hp2, traverse_spec qr s rest hr2, ?_, ?_⟩
  · rw [tail_eq_head_iff qp x rest hp2]
    simp [empty]
  · rw [tail_eq_head_iff qr s rest hr2]
    simp [empty]

theorem pop_equiv_remove_begin_witness :
    WellFormed sampleQueue (0, 0) ((1, 10) :: [(2, 20), (3, 30)]) ∧
      ∃ b qp qr xr, begin sampleQueue = .ok b ∧ pop true sampleQueue = .ok qp ∧
        remove sampleQueue b = .ok (qr, xr) ∧ qp.count = qr.count ∧
        traverse sampleQueue = .ok (10 :: [20, 30], end_ sampleQueue) ∧
        traverse qp = .ok ([20, 30], end_ qp) ∧
        traverse qr = .ok ([20, 30], end_ qr) ∧
        (qp.tail = qp.head ↔ empty qp = true) ∧ (qr.tail = qr.head ↔ empty qr = true) :=
  ⟨by decide,
    pop_equiv_remove_begin true sampleQueue (0, 0) (1, 10) [(2, 20), (3, 30)] (by decide)⟩

/-- C19. In a well-formed queue, `remove` on a cursor on the linked real node `x`
succeeds, so it dereferences no null pointer.  When the front branch is not taken
(`x.cur != head->next`) the node's `prev` is not null, is not the sentinel and is live;
when neither the front nor the tail branch is taken the node's `next` is not null and is
live. -/
theorem remove_no_null_link (q : State α) (s : Nat × α) (L1 : List (Nat × α))
    (x : Nat × α) (B : List (Nat × α)) (hwf : WellFormed q s (L1 ++ x :: B)) :
    ∃ h e q1 x1, q.mem.load q.head = .ok h ∧ q.mem.load (some x.1) = .ok e ∧
      remove q { cur := some x.1 } = .ok (q1, x1) ∧
      (some x.1 ≠ h.next →
        e.prev ≠ none ∧ e.prev ≠ q.head ∧ ∃ pe, q.mem.load e.prev = .ok pe) ∧
      (some x.1 ≠ h.next → some x.1 ≠ q.tail →
        e.next ≠ none ∧ ∃ ne, q.mem.load e.next = .ok ne) := by
  obtain ⟨q1, x1, hrem, -⟩ := remove_split q s L1 x B hwf
  obtain ⟨hhead, htail, -, hlink, hnodup, -⟩ := hwf
  have hs := hlink.1
  have hloadh : q.mem.load q.head =
      .ok { res := s.2, prev := none, next := firstPtr (L1 ++ x :: B) none } := by
    rw [hhead]
    simp only [Heap.load, hs]
  rcases List.eq_nil_or_concat L1 with rfl | ⟨A, p, rfl⟩
  · have hx := hlink.2.1
    have hloadx : q.mem.load (some x.1) =
        .ok { res := x.2, prev := some s.1, next := firstPtr B none } := by
      simp only [Heap.load, hx]
    refine ⟨_, _, q1, x1, hloadh, hloadx, hrem, ?_, ?_⟩
    · intro hne
      exact absurd rfl hne
    · intro hne
      exact absurd rfl hne
  · rw [List.concat_eq_append, List.append_assoc] at hlink hnodup htail
    have hl := hlink
    rw [← List.cons_append, linked_append] at hl
    obtain ⟨-, hp, hx, hrest⟩ := hl
    have hsp : s.1 ≠ p.1 := by
      intro heq
      rw [← List.cons_append, List.map_append, List.nodup_append] at hnodup
      exact hnodup.2.2 (List.mem_map_of_mem _ (List.mem_cons_self s A)) (by simp [heq])
    have hloadx : q.mem.load (some x.1) =
        .ok { res := x.2, prev := some p.1, next := firstPtr B none } := by
      simp only [Heap.load, hx]
    have hloadp : q.mem.load (some p.1) =
        .ok { res := p.2, prev := lastPtr none (s :: A), next := some x.1 } := by
      simp only [Heap.load, hp]
      rfl
    refine ⟨_, _, q1, x1, hloadh, hloadx, hrem, ?_, ?_⟩
    · intro _
      refine ⟨by simp, ?_, _, hloadp⟩
      rw [hhead]
      intro heq
      exact hsp (Option.some.inj heq).symm
    · intro _ hnt
      cases B with
      | nil =>
        exfalso
        apply hnt
        rw [htail, lastPtr_append]
        rfl
      | cons y B1 =>
        have hy := hrest.1
        have hloady : q.mem.load (some y.1) =
            .ok { res := y.2, prev := some x.1, next := firstPtr B1 none } := by
          simp only [Heap.load, hy]
        exact ⟨by simp [firstPtr], _, hloady⟩

theorem remove_no_null_link_witness :
    WellFormed sampleQueue (0, 0) ([(1, 10)] ++ (2, 20) :: [(3, 30)]) ∧
      ∃ h e q1 x1, sampleQueue.mem.load sampleQueue.head = .ok h ∧
        sampleQueue.mem.load (some 2) = .ok e ∧
        remove sampleQueue { cur := some 2 } = .ok (q1, x1) ∧
        (some 2 ≠ h.next →
          e.prev ≠ none ∧ e.prev ≠ sampleQueue.head ∧
            ∃ pe, sampleQueue.mem.load e.prev = .ok pe) ∧
        (some 2 ≠ h.next → some 2 ≠ sampleQueue.tail →
          e.next ≠ none ∧ ∃ ne, sampleQueue.mem.load e.next = .ok ne) :=
  ⟨by decide,
    remove_no_null_link sampleQueue (0, 0) [(1, 10)] (2, 20) [(3, 30)] (by decide)⟩

/-- C20. On a well-formed queue with at least two elements whose front value is `x.2`,
`pop()` makes the node that held the front element the new `head`, still storing `x.2`:
`begin()` moved front once is the cursor that referenced the old front, `fetch` on it
returns `x.2`, and that cursor references a live node, the new `head`. -/
theorem pop_recycles_front (ndebug : Bool) (q : State α) (s x y : Nat × α)
    (rest : List (Nat × α)) (hwf : WellFormed q s (x :: y :: rest)) :
    ∃ b0 q1 b b1, begin q = .ok b0 ∧ iterator.fetch q.mem b0 = .ok x.2 ∧
      pop ndebug q = .ok q1 ∧ q1.head = b0.cur ∧
      begin q1 = .ok b ∧ iterator.moveFront q1.mem b = .ok b1 ∧ b1 = b0 ∧
      iterator.fetch q1.mem b1 = .ok x.2 := by
  obtain ⟨q1, h1, h2, -, h4, -⟩ := pop_spec ndebug q s x (y :: rest) hwf
  have hx := hwf.2.2.2.1.2
  have hx1 := h2.2.2.2.1
  refine ⟨_, q1, _, _, begin_spec q s _ hwf, fetch_linked _ _ _ _ _ hx, h1, h4,
    begin_spec q1 x _ h2, moveFront_linked _ _ _ _ _ hx1.2, rfl, fetch_linked _ _ _ _ _ hx1⟩

theorem pop_recycles_front_witness :
    WellFormed sampleQueue (0, 0) ((1, 10) :: (2, 20) :: [(3, 30)]) ∧
      ∃ b0 q1 b b1, begin sampleQueue = .ok b0 ∧
        iterator.fetch sampleQueue.mem b0 = .ok 10 ∧
        pop true sampleQueue = .ok q1 ∧ q1.head = b0.cur ∧
        begin q1 = .ok b ∧ iterator.moveFront q1.mem b = .ok b1 ∧ b1 = b0 ∧
        iterator.fetch q1.mem b1 = .ok 10 :=
  ⟨by decide,
    pop_recycles_front true sampleQueue (0, 0) (1, 10) (2, 20) [(3, 30)] (by decide)⟩

end CQueue
